import Mathlib

/-!
Verification of the artifact-selection core of the vcpkg-artifacts package
manager: the media-query DSL (scanner in
`src/vcpkg-artifacts/mediaquery/scanner.js`, parser and evaluator in
`src/vcpkg-artifacts/mediaquery/media-query.js`) and the registry index
engine (`src/unnamed/part_000`, original name `registries/indexer.js`).

Modelling conventions:
- The JavaScript text is modelled as a `List Char` of Unicode scalar values;
  offsets count scalar values (the source counts UTF-16 units via `sizeOf`,
  which agrees on all inputs without supplementary-plane characters).
- Reading a character position beyond the end of the text
  (`charCodeAt` returning NaN in the source) is modelled as `none`.
- Functions of the source that can throw are modelled in `Except`;
  the `try/catch` in `QueryList.parse` becomes an explicit `match`.
- Loops are modelled by structural recursion on the remaining text or by a
  fuel parameter that is always initialised large enough (each loop
  iteration advances the scanner offset by at least one).
-/

/-- Error object thrown by the scanner and the parser
(class `MediaQueryError` of scanner.js: message plus line/column). -/
structure MediaQueryError where
  message : String
  line : Nat
  column : Nat
  deriving DecidableEq, Repr

/-- Token kinds of the media-query scanner (enum `Kind` of scanner.js).
The element kinds 2000 and above are never produced and are omitted. -/
inductive Kind where
  | Unknown
  | EndOfFile
  | SingleLineComment
  | MultiLineComment
  | NewLine
  | Whitespace
  | ConflictMarker
  | NumericLiteral
  | StringLiteral
  | BooleanLiteral
  | TrueKeyword
  | FalseKeyword
  | OpenBrace
  | CloseBrace
  | OpenParen
  | CloseParen
  | OpenBracket
  | CloseBracket
  | Dot
  | Elipsis
  | Semicolon
  | Comma
  | QuestionDot
  | LessThan
  | LessThanSlash
  | GreaterThan
  | LessThanEquals
  | GreaterThanEquals
  | EqualsEquals
  | ExclamationEquals
  | EqualsEqualsEquals
  | ExclamationEqualsEquals
  | EqualsArrow
  | Plus
  | Minus
  | Asterisk
  | AsteriskAsterisk
  | Slash
  | Percent
  | PlusPlus
  | MinusMinus
  | LessThanLessThan
  | GreaterThanGreaterThan
  | GreaterThanGreaterThanGreaterThan
  | Ampersand
  | Bar
  | Caret
  | Exclamation
  | Tilde
  | AmpersandAmpersand
  | BarBar
  | Question
  | Colon
  | At
  | QuestionQuestion
  | Equals
  | PlusEquals
  | MinusEquals
  | AsteriskEquals
  | AsteriskAsteriskEquals
  | SlashEquals
  | PercentEquals
  | LessThanLessThanEquals
  | GreaterThanGreaterThanEquals
  | GreaterThanGreaterThanGreaterThanEquals
  | AmpersandEquals
  | BarEquals
  | BarBarEquals
  | AmpersandAmpersandEquals
  | QuestionQuestionEquals
  | CaretEquals
  | Identifier
  | AndKeyword
  | NotKeyword
  deriving DecidableEq, Repr

/-- Decimal digit test (character-codes helper `isDigit`; the module
character-codes.js is not part of the provided sources, modelled from the
spec: digits are 0-9). -/
def isDigit (c : Char) : Bool :=
  '0' ≤ c && c ≤ '9'

/-- Hexadecimal digit test. Modelled from the spec: `HexDigitExpected`
reads "Hex Digit expected (0-F,0-f)". -/
def isHexDigit (c : Char) : Bool :=
  isDigit c || ('a' ≤ c && c ≤ 'f') || ('A' ≤ c && c ≤ 'F')

/-- Binary digit test. Modelled from the spec: "Binary Digit expected (0,1)". -/
def isBinaryDigit (c : Char) : Bool :=
  c = '0' || c = '1'

/-- Single-line whitespace characters: exactly the whitespace `case` labels
of `Scanner.scan` (tab, vertical tab, form feed, space, and the listed
Unicode space characters; newlines are handled separately). -/
def isWhiteSpaceSingleLine (c : Char) : Bool :=
  c.val = 9 || c.val = 11 || c.val = 12 || c.val = 32 || c.val = 160 ||
  c.val = 5760 || (8192 ≤ c.val && c.val ≤ 8203) || c.val = 8239 ||
  c.val = 8287 || c.val = 12288 || c.val = 65279

/-- Line break characters (character-codes helper `isLineBreak`, not in the
provided sources; modelled from the spec as LF, CR and the Unicode line and
paragraph separators). -/
def isLineBreak (c : Char) : Bool :=
  c.val = 10 || c.val = 13 || c.val = 8232 || c.val = 8233

/-- Identifier start characters (character-codes helper `isIdentifierStart`,
not in the provided sources; modelled from the spec: "any run of
identifier-start/continue characters" with the usual ASCII letters,
underscore, dollar, and all non-ASCII characters). -/
def isIdentifierStart (c : Char) : Bool :=
  ('a' ≤ c && c ≤ 'z') || ('A' ≤ c && c ≤ 'Z') || c = '_' || c = '$' ||
  c.val ≥ 128

/-- Identifier continue characters; identifier starts plus digits. -/
def isIdentifierPart (c : Char) : Bool :=
  isIdentifierStart c || isDigit c

/-- Entry of the offset-to-position checkpoint map of the scanner. -/
structure MapEntry where
  offset : Nat
  line : Nat
  column : Nat
  deriving DecidableEq, Repr

/-- Line/column pair returned by `positionFromOffset`. -/
structure Position where
  line : Nat
  column : Nat
  deriving DecidableEq, Repr

/-- State of the media-query scanner (class `Scanner` of scanner.js).
`offset`, `line`, `column` and `map` are the private cursor fields;
`tokOffset`, `kind`, `tokText` and `stringValue` are the public fields
`offset`, `kind`, `text` and `stringValue` describing the current token.
The lookahead fields of the source cache the characters at
`offset`, `offset+1` and `offset+2` and are recomputed here on demand. -/
structure Scanner where
  text : List Char
  offset : Nat
  line : Nat
  column : Nat
  map : List MapEntry
  tabWidth : Nat
  tokOffset : Nat
  kind : Kind
  tokText : String
  stringValue : Option String
  deriving DecidableEq, Repr

/-- Scanner construction (`new Scanner(text)`): position zero, one
checkpoint at offset zero.  The token fields are undefined before the first
`scan` call in the source; they are given inert defaults here. -/
def Scanner.init (text : String) : Scanner :=
  { text := text.data, offset := 0, line := 0, column := 0,
    map := [⟨0, 0, 0⟩], tabWidth := 2, tokOffset := 0,
    kind := Kind.Unknown, tokText := "", stringValue := none }

/-- Current character `#ch` (none models NaN past the end). -/
def Scanner.ch (s : Scanner) : Option Char :=
  s.text.get? s.offset

/-- Lookahead character `#chNext`. -/
def Scanner.chNext (s : Scanner) : Option Char :=
  s.text.get? (s.offset + 1)

/-- Lookahead character `#chNextNext`. -/
def Scanner.chNextNext (s : Scanner) : Option Char :=
  s.text.get? (s.offset + 2)

/-- End-of-input test: the source `eof` getter is `#offset > #length`,
so the position just past the last character is not yet eof. -/
def Scanner.eof (s : Scanner) : Bool :=
  s.offset > s.text.length

/-- Advance the cursor by `n` scalar values (`advance`). -/
def Scanner.advance (s : Scanner) (n : Nat) : Scanner :=
  { s with offset := s.offset + n }

/-- Record the current position in the checkpoint map (`markPosition`). -/
def Scanner.markPosition (s : Scanner) : Scanner :=
  { s with map := s.map ++ [⟨s.offset, s.line, s.column⟩] }

/-- Produce a simple token of `count` characters (`next`): sets the kind,
takes the token text from the input, and advances offset and column. -/
def Scanner.next (s : Scanner) (k : Kind) (count : Nat) : Scanner :=
  { s with kind := k,
           tokText := String.mk ((s.text.drop s.offset).take count),
           offset := s.offset + count,
           column := s.column + count }

/-- Produce a newline token (`newLine`): advances, bumps the line counter,
resets the column and records a checkpoint. -/
def Scanner.newLine (s : Scanner) (count : Nat) : Scanner :=
  let s1 := { s with tokText := String.mk ((s.text.drop s.offset).take count) }
  let s2 := s1.advance count
  let s3 := { s2 with line := s2.line + 1, column := 0 }
  let s4 := s3.markPosition
  { s4 with kind := Kind.NewLine }

/-- Width of the current character for column tracking (`widthOfCh`):
a tab advances to the next multiple of the tab width, everything else
advances by one. -/
def Scanner.widthOfCh (s : Scanner) : Nat :=
  if s.ch = some '\t' then
    (if s.column % s.tabWidth = 0 then s.tabWidth else s.column % s.tabWidth)
  else 1

/-- Position lookup (`positionFromOffset`): the greatest checkpoint at or
before `offset`, with the column advanced by the remaining distance.  The
source uses binary search over the ascending checkpoint map; on such a map
the linear fold below returns the same entry. -/
def Scanner.positionFromOffset (s : Scanner) (offset : Nat) : Position :=
  if offset > s.text.length then ⟨0, 0⟩
  else
    let best := s.map.foldl
      (fun acc e => if e.offset ≤ offset then some e else acc) none
    match best with
    | some e =>
        if e.offset = offset then ⟨e.line, e.column⟩
        else ⟨e.line, e.column + (offset - e.offset)⟩
    | none => ⟨0, 0⟩

/-- Position of the current token (the `position` getter). -/
def Scanner.position (s : Scanner) : Position :=
  s.positionFromOffset s.tokOffset

/-- Build the error the scanner `assert` helper throws: the given message
at the current token position. -/
def Scanner.mkError (s : Scanner) (msg : String) : MediaQueryError :=
  ⟨msg, s.position.line, s.position.column⟩

/-- Length of the leading run of single-line whitespace characters. -/
def wsRun : List Char → Nat
  | [] => 0
  | c :: cs => if isWhiteSpaceSingleLine c then wsRun cs + 1 else 0

/-- Fold the column over a list of consumed characters, replicating the
per-character `#column += this.widthOfCh` updates of `scanWhitespace`. -/
def colFold (tabWidth : Nat) : Nat → List Char → Nat
  | col, [] => col
  | col, c :: cs =>
      let w := if c = '\t' then
          (if col % tabWidth = 0 then tabWidth else col % tabWidth)
        else 1
      colFold tabWidth (col + w) cs

/-- Scan a maximal whitespace token (`scanWhitespace`): a do-while loop that
consumes the current character and then every following single-line
whitespace character, with checkpoints before and after. -/
def Scanner.scanWhitespace (s : Scanner) : Scanner :=
  let s1 := s.markPosition
  let consumed := 1 + wsRun (s1.text.drop (s1.offset + 1))
  let newCol := colFold s1.tabWidth s1.column ((s1.text.drop s1.offset).take consumed)
  let s2 := { s1 with offset := s1.offset + consumed, column := newCol }
  let s3 := s2.markPosition
  { s3 with tokText := String.mk ((s.text.drop s.offset).take consumed),
            kind := Kind.Whitespace }

/-- Consume a run of decimal digits (`scanDigits`); returns the digits and
the advanced scanner. -/
def Scanner.scanDigits (s : Scanner) : String × Scanner :=
  let ds := (s.text.drop s.offset).takeWhile (fun c => isDigit c)
  (String.mk ds, { s with offset := s.offset + ds.length })

/-- Scan a decimal numeric literal (`scanNumber`): integer part, optional
fraction, optional exponent; throws `Digit expected` when `e`/`E` is not
followed by a digit.  The column advances by the number of characters
consumed. -/
def Scanner.scanNumber (s : Scanner) : Except MediaQueryError Scanner :=
  let start := s.offset
  let (main, s1) := s.scanDigits
  let (decimal, s2) :=
    if s1.ch = some '.' then
      let (d, s') := (s1.advance 1).scanDigits
      (some d, s')
    else (none, s1)
  if s2.ch = some 'E' ∨ s2.ch = some 'e' then
    match s2.chNext with
    | some d =>
        if isDigit d then
          let (sc, s3) := (s2.advance 1).scanDigits
          let txt := buildNumberText main decimal (some sc)
          .ok { s3 with tokText := txt,
                        column := s3.column + (s3.offset - start),
                        kind := Kind.NumericLiteral }
        else .error (s2.mkError "ParseError: Digit expected (0-9)")
    | none => .error (s2.mkError "ParseError: Digit expected (0-9)")
  else
    let txt := buildNumberText main decimal none
    .ok { s2 with tokText := txt,
                  column := s2.column + (s2.offset - start),
                  kind := Kind.NumericLiteral }
where
  /-- Rebuild the token text from the parts, replicating the template
  selection of the source where an absent or empty (falsy) part is
  dropped. -/
  buildNumberText (main : String) (decimal scientific : Option String) : String :=
    let d := decimal.getD ""
    let sc := scientific.getD ""
    if sc ≠ "" then
      if d ≠ "" then main ++ "." ++ d ++ "e" ++ sc else main ++ "e" ++ sc
    else
      if d ≠ "" then main ++ "." ++ d else main

/-- Lift a predicate on the current character to the three-character
lookahead shape expected by `scanUntil`. -/
def charPred (q : Option Char → Bool) :
    Option Char → Option Char → Option Char → Bool :=
  fun c _ _ => q c

/-- Stop condition of `scanHexNumber`: not a hex digit (NaN past the end
is not one). -/
def notHexDigit (c : Option Char) : Bool :=
  !(match c with | some c => isHexDigit c | none => false)

/-- Stop condition of `scanBinaryNumber`: not a binary digit. -/
def notBinDigit (c : Option Char) : Bool :=
  !(match c with | some c => isBinaryDigit c | none => false)

/-- Stop condition of `scanIdentifier`: not an identifier part. -/
def notIdentPart (c : Option Char) : Bool :=
  !(match c with | some c => isIdentifierPart c | none => false)

/-- Stop condition of `scanSingleLineComment`: a line break. -/
def lineBreakStop (c : Option Char) : Bool :=
  match c with | some c => isLineBreak c | none => false

/-- One-or-more-step consume loop of `scanUntil`: a do-while that advances
over the current character (tracking newlines), then stops on end of input
(throwing `Unexpected end of file` when a closing text was expected) or
when the predicate holds of the new lookahead window.  The fuel is always
initialised to more than the remaining text length; every iteration
advances the offset by at least one, so the zero-fuel branch is never
reached from `Scanner.scanUntil`. -/
def Scanner.scanUntilAux (p : Option Char → Option Char → Option Char → Bool)
    (expectedClose : Option String) :
    Nat → Scanner → Except MediaQueryError Scanner
  | 0, s => .ok s
  | fuel + 1, s =>
    let s1 :=
      if (match s.ch with | some c => isLineBreak c | none => false) then
        let cnt := if s.ch = some '\r' ∧ s.chNext = some '\n' then 2 else 1
        ({ s.advance cnt with line := s.line + 1, column := 0 }).markPosition
      else
        { s.advance 1 with column := s.column + s.widthOfCh }
    if s1.eof then
      match expectedClose with
      | some close =>
          .error (s1.mkError
            ("Unexpected end of file while searching for '" ++ close ++ "'"))
      | none => .ok s1
    else if p s1.ch s1.chNext s1.chNextNext then .ok s1
    else Scanner.scanUntilAux p expectedClose fuel s1

/-- Scan until the predicate matches (`scanUntil`): runs the consume loop,
optionally consumes the closing characters, records a checkpoint and
returns the consumed text. -/
def Scanner.scanUntil (s : Scanner)
    (p : Option Char → Option Char → Option Char → Bool)
    (expectedClose : Option String) (consumeClose : Option Nat) :
    Except MediaQueryError (String × Scanner) := do
  let start := s.offset
  let s1 ← Scanner.scanUntilAux p expectedClose (s.text.length + 2) s
  let s2 := match consumeClose with | some n => s1.advance n | none => s1
  let s3 := s2.markPosition
  .ok (String.mk ((s3.text.drop start).take (s3.offset - start)), s3)

/-- Scan a hexadecimal literal (`scanHexNumber`): requires a hex digit
after the two prefix characters, then consumes the maximal run of hex
digits; the token text is rebuilt with a lowercase `0x` prefix. -/
def Scanner.scanHexNumber (s : Scanner) : Except MediaQueryError Scanner := do
  match s.chNextNext with
  | some c =>
      if isHexDigit c then
        let s1 := s.advance 2
        let (t, s2) ← s1.scanUntil (charPred notHexDigit)
          (some "Hex Digit") none
        .ok { s2 with tokText := "0x" ++ t, kind := Kind.NumericLiteral }
      else .error (s.mkError "ParseError: Hex Digit expected (0-F,0-f)")
  | none => .error (s.mkError "ParseError: Hex Digit expected (0-F,0-f)")

/-- Scan a binary literal (`scanBinaryNumber`): requires a binary digit
after the two prefix characters, then consumes the maximal run of binary
digits; the token text is rebuilt with a lowercase `0b` prefix. -/
def Scanner.scanBinaryNumber (s : Scanner) : Except MediaQueryError Scanner := do
  match s.chNextNext with
  | some c =>
      if isBinaryDigit c then
        let s1 := s.advance 2
        let (t, s2) ← s1.scanUntil (charPred notBinDigit)
          (some "Binary Digit") none
        .ok { s2 with tokText := "0b" ++ t, kind := Kind.NumericLiteral }
      else .error (s.mkError "ParseError: Binary Digit expected (0,1)")
  | none => .error (s.mkError "ParseError: Binary Digit expected (0,1)")

/-- Scan a single-line comment (`scanSingleLineComment`): consume until a
line break. -/
def Scanner.scanSingleLineComment (s : Scanner) :
    Except MediaQueryError Scanner := do
  let (t, s1) ← s.scanUntil (charPred lineBreakStop) none none
  .ok { s1 with tokText := t, kind := Kind.SingleLineComment }

/-- Scan a multi-line comment (`scanMultiLineComment`): consume until the
closing star-slash, which is itself consumed. -/
def Scanner.scanMultiLineComment (s : Scanner) :
    Except MediaQueryError Scanner := do
  let (t, s1) ← s.scanUntil
    (fun c cn _ => c = some '*' ∧ cn = some '/')
    (some "*/") (some 2)
  .ok { s1 with tokText := t, kind := Kind.MultiLineComment }

/-- Single step of the stateful string predicate of `scanString`.
Returns (stop, new isEscaping flag, new escaped flag, new crlf flag): a
backslash starts an escape, the escaped character never stops the loop, an
unescaped carriage return directly followed by a line feed records the crlf
flag, and the loop stops at the unescaped quote character. -/
def stringPredStep (quote : Char) (c cn : Option Char)
    (isEscaping escaped crlf : Bool) : Bool × Bool × Bool × Bool :=
  if isEscaping then (false, false, escaped, crlf)
  else if c = some '\\' then (false, true, true, crlf)
  else if c = some '\r' then
    (false, false, escaped, if cn = some '\n' then true else crlf)
  else (c = some quote, false, escaped, crlf)

/-- Consume loop of `scanString`: the `scanUntil` loop specialised to the
stateful closure predicate of the source, threading the escape state and
accumulating the escaped and crlf flags.  Returns the scanner stopped at
the closing quote plus the two flags; throws `Unexpected end of file` when
the input ends before the closing quote. -/
def Scanner.scanStringAux (quote : Char) (closing : String) :
    Nat → Scanner → Bool → Bool → Bool →
    Except MediaQueryError (Scanner × Bool × Bool)
  | 0, s, _, escaped, crlf => .ok (s, escaped, crlf)
  | fuel + 1, s, isEscaping, escaped, crlf =>
    let s1 :=
      if (match s.ch with | some c => isLineBreak c | none => false) then
        let cnt := if s.ch = some '\r' ∧ s.chNext = some '\n' then 2 else 1
        ({ s.advance cnt with line := s.line + 1, column := 0 }).markPosition
      else
        { s.advance 1 with column := s.column + s.widthOfCh }
    if s1.eof then
      .error (s1.mkError
        ("Unexpected end of file while searching for '" ++ closing ++ "'"))
    else
      match stringPredStep quote s1.ch s1.chNext isEscaping escaped crlf with
      | (stop, isEscaping', escaped', crlf') =>
        if stop then .ok (s1, escaped', crlf')
        else Scanner.scanStringAux quote closing fuel s1 isEscaping' escaped' crlf'

/-- Normalise CRLF pairs to LF (the `value.replace` of `scanString`). -/
def replaceCrlf : List Char → List Char
  | '\r' :: '\n' :: rest => '\n' :: replaceCrlf rest
  | c :: rest => c :: replaceCrlf rest
  | [] => []

/-- Resolve the escape sequences of a string body (`unescapeString`);
fails on an unrecognised escape, including a trailing lone backslash. -/
def unescapeChars : List Char → Option (List Char)
  | [] => some []
  | '\\' :: rest =>
    match rest with
    | 'r' :: t => (unescapeChars t).map (fun l => '\r' :: l)
    | 'n' :: t => (unescapeChars t).map (fun l => '\n' :: l)
    | 't' :: t => (unescapeChars t).map (fun l => '\t' :: l)
    | c :: t =>
        if c = Char.ofNat 39 ∨ c = Char.ofNat 34 ∨ c = '\\' ∨ c = Char.ofNat 96
        then (unescapeChars t).map (fun l => c :: l)
        else none
    | [] => none
  | c :: rest => (unescapeChars rest).map (fun l => c :: l)

/-- Scan a string literal (`scanString`): runs the consume loop from the
opening quote, consumes the closing quote, strips the quotes, normalises
CRLF when one was seen, and unescapes when a backslash was seen; the
unescape step throws `Invalid escape sequence` at the token position. -/
def Scanner.scanString (s : Scanner) (quote : Char) :
    Except MediaQueryError Scanner := do
  let start := s.offset
  let (s1, escaped, crlf) ←
    Scanner.scanStringAux quote (String.mk [quote]) (s.text.length + 2)
      s false false false
  let s2 := s1.advance 1
  let s3 := s2.markPosition
  let textChars := (s3.text.drop start).take (s3.offset - start)
  let value0 := (textChars.drop 1).take (textChars.length - 2)
  let value1 := if crlf then replaceCrlf value0 else value0
  let value2 ←
    if escaped then
      match unescapeChars value1 with
      | some l => Except.ok l
      | none => Except.error (s3.mkError "Invalid escape sequence")
    else Except.ok value1
  .ok { s3 with tokText := String.mk textChars,
                stringValue := some (String.mk value2),
                kind := Kind.StringLiteral }

/-- Keyword lookup (`keywords` map): reclassifies identifier text into
keyword or boolean-literal kinds. -/
def keywordKind (t : String) : Kind :=
  if t = "NOT" ∨ t = "not" then Kind.NotKeyword
  else if t = "AND" ∨ t = "and" then Kind.AndKeyword
  else if t = "true" ∨ t = "false" then Kind.BooleanLiteral
  else Kind.Identifier

/-- Scan an identifier (`scanIdentifier`): consume until a character that
is not an identifier part, then reclassify keywords. -/
def Scanner.scanIdentifier (s : Scanner) : Except MediaQueryError Scanner := do
  let (t, s1) ← s.scanUntil (charPred notIdentPart) none none
  .ok { s1 with tokText := t, kind := keywordKind t }

/-- Conflict-marker test (`isConflictMarker`): at the start of a line, the
current character repeated seven times, and either an equals marker or a
following space. -/
def Scanner.isConflictMarker (s : Scanner) : Bool :=
  (s.offset == 0 ||
    (match s.text.get? (s.offset - 1) with
      | some c => isLineBreak c | none => false)) &&
  decide (s.offset + 7 < s.text.length) &&
  ((List.range 7).all (fun i => s.text.get? (s.offset + i) == s.ch)) &&
  (s.ch == some '=' || s.text.get? (s.offset + 7) == some ' ')

/-- Main token dispatch (`Scanner.scan`): records the token start, and on
eof produces `EndOfFile`; otherwise dispatches on the current character
exactly as the source switch does.  Reading at the position just past the
last character (NaN in the source) falls through to the default case and
produces an `Unknown` token of one step, taking the scanner past eof. -/
def Scanner.scan (s : Scanner) : Except MediaQueryError Scanner :=
  let s := { s with tokOffset := s.offset, stringValue := none }
  if s.eof then .ok { s with tokText := "", kind := Kind.EndOfFile }
  else
    match s.ch with
    | none => .ok (s.next Kind.Unknown 1)
    | some c =>
      if c = '\r' then
        .ok (s.newLine (if s.chNext = some '\n' then 2 else 1))
      else if c = '\n' then .ok (s.newLine 1)
      else if isWhiteSpaceSingleLine c then .ok s.scanWhitespace
      else if c = '(' then .ok (s.next Kind.OpenParen 1)
      else if c = ')' then .ok (s.next Kind.CloseParen 1)
      else if c = ',' then .ok (s.next Kind.Comma 1)
      else if c = ':' then .ok (s.next Kind.Colon 1)
      else if c = ';' then .ok (s.next Kind.Semicolon 1)
      else if c = '[' then .ok (s.next Kind.OpenBracket 1)
      else if c = ']' then .ok (s.next Kind.CloseBracket 1)
      else if c = Char.ofNat 123 then .ok (s.next Kind.OpenBrace 1)
      else if c = Char.ofNat 125 then .ok (s.next Kind.CloseBrace 1)
      else if c = '~' then .ok (s.next Kind.Tilde 1)
      else if c = '@' then .ok (s.next Kind.At 1)
      else if c = '^' then
        .ok (if s.chNext = some '=' then s.next Kind.CaretEquals 2
             else s.next Kind.Caret 1)
      else if c = '%' then
        .ok (if s.chNext = some '=' then s.next Kind.PercentEquals 2
             else s.next Kind.Percent 1)
      else if c = '?' then
        .ok (if s.chNext = some '.' ∧
               !(match s.chNextNext with
                  | some d => isDigit d | none => false) then
               s.next Kind.QuestionDot 2
             else if s.chNext = some '?' then
               (if s.chNextNext = some '=' then s.next Kind.QuestionQuestionEquals 3
                else s.next Kind.QuestionQuestion 2)
             else s.next Kind.Question 1)
      else if c = '!' then
        .ok (if s.chNext = some '=' then
               (if s.chNextNext = some '=' then s.next Kind.ExclamationEqualsEquals 3
                else s.next Kind.ExclamationEquals 2)
             else s.next Kind.Exclamation 1)
      else if c = '&' then
        .ok (if s.chNext = some '&' then
               (if s.chNextNext = some '=' then s.next Kind.AmpersandAmpersandEquals 3
                else s.next Kind.AmpersandAmpersand 2)
             else if s.chNext = some '=' then s.next Kind.AmpersandEquals 2
             else s.next Kind.Ampersand 1)
      else if c = '*' then
        .ok (if s.chNext = some '*' then
               (if s.chNextNext = some '=' then s.next Kind.AsteriskAsteriskEquals 3
                else s.next Kind.AsteriskAsterisk 2)
             else if s.chNext = some '=' then s.next Kind.AsteriskEquals 2
             else s.next Kind.Asterisk 1)
      else if c = '+' then
        .ok (if s.chNext = some '+' then s.next Kind.PlusPlus 2
             else if s.chNext = some '=' then s.next Kind.PlusEquals 2
             else s.next Kind.Plus 1)
      else if c = '-' then
        .ok (if s.chNext = some '-' then s.next Kind.MinusMinus 2
             else if s.chNext = some '=' then s.next Kind.MinusEquals 2
             else s.next Kind.Minus 1)
      else if c = '.' then
        if (match s.chNext with | some d => isDigit d | none => false) then
          s.scanNumber
        else if s.chNext = some '.' ∧ s.chNextNext = some '.' then
          .ok (s.next Kind.Elipsis 3)
        else .ok (s.next Kind.Dot 1)
      else if c = '/' then
        if s.chNext = some '/' then s.scanSingleLineComment
        else if s.chNext = some '*' then s.scanMultiLineComment
        else if s.chNext = some '=' then .ok (s.next Kind.SlashEquals 1)
        else .ok (s.next Kind.Slash 1)
      else if c = '0' then
        if s.chNext = some 'x' ∨ s.chNext = some 'X' then s.scanHexNumber
        else if s.chNext = some 'B' ∨ s.chNext = some 'B' then s.scanBinaryNumber
        else s.scanNumber
      else if isDigit c then s.scanNumber
      else if c = '<' then
        .ok (if s.isConflictMarker then s.next Kind.ConflictMarker 7
             else if s.chNext = some '<' then
               (if s.chNextNext = some '=' then s.next Kind.LessThanLessThanEquals 3
                else s.next Kind.LessThanLessThan 2)
             else if s.chNext = some '=' then s.next Kind.LessThanEquals 2
             else s.next Kind.LessThan 1)
      else if c = '>' then
        .ok (if s.isConflictMarker then s.next Kind.ConflictMarker 7
             else s.next Kind.GreaterThan 1)
      else if c = '=' then
        .ok (if s.isConflictMarker then s.next Kind.ConflictMarker 7
             else if s.chNext = some '=' then
               (if s.chNextNext = some '=' then s.next Kind.EqualsEqualsEquals 3
                else s.next Kind.EqualsEquals 2)
             else if s.chNext = some '>' then s.next Kind.EqualsArrow 2
             else s.next Kind.Equals 1)
      else if c = '|' then
        .ok (if s.isConflictMarker then s.next Kind.ConflictMarker 7
             else if s.chNext = some '|' then
               (if s.chNextNext = some '=' then s.next Kind.BarBarEquals 3
                else s.next Kind.BarBar 2)
             else if s.chNext = some '=' then s.next Kind.BarEquals 2
             else s.next Kind.Bar 1)
      else if c = Char.ofNat 39 ∨ c = Char.ofNat 34 ∨ c = Char.ofNat 96 then
        s.scanString c
      else if isIdentifierStart c then s.scanIdentifier
      else .ok (s.next Kind.Unknown 1)

/-- Snapshot of the public scanner fields returned by `Scanner.take`
(the object spread over the scanner copies `offset`, `kind`, `text` and
`stringValue`). -/
structure Token where
  offset : Nat
  kind : Kind
  text : String
  stringValue : Option String
  deriving DecidableEq, Repr

/-- Current-token snapshot of the scanner. -/
def Scanner.tokenOf (s : Scanner) : Token :=
  ⟨s.tokOffset, s.kind, s.tokText, s.stringValue⟩

/-- Take the current token and scan the next one (`Scanner.take`). -/
def Scanner.take (s : Scanner) : Except MediaQueryError (Token × Scanner) := do
  let s' ← s.scan
  .ok (s.tokenOf, s')

/-- Internal error for the unreachable fuel-exhaustion branches of the
parser loops; the fuel is always initialised to more than the text length
and each loop iteration consumes at least one token character. -/
def fuelExhausted : MediaQueryError :=
  ⟨"internal: fuel exhausted", 0, 0⟩

/-- Skip whitespace tokens (module function `takeWhitespace` of
media-query.js): while not eof and the current token is whitespace, take. -/
def takeWhitespaceAux : Nat → Scanner → Except MediaQueryError Scanner
  | 0, _ => .error fuelExhausted
  | fuel + 1, cursor =>
    if !cursor.eof ∧ cursor.kind = Kind.Whitespace then do
      let (_, cursor') ← cursor.take
      takeWhitespaceAux fuel cursor'
    else .ok cursor

/-- Skip whitespace with sufficient fuel. -/
def takeWhitespace (cursor : Scanner) : Except MediaQueryError Scanner :=
  takeWhitespaceAux (cursor.text.length + 2) cursor

/-- Render a token text inside an error message (`JSON.stringify` in the
source; modelled as plain quoting, escaping is immaterial here). -/
def jsonQuote (t : String) : String :=
  "\"" ++ t ++ "\""

/-- Parsed media-query expression (class `Expression`): a feature token,
an optional constant token, and the negation flag. -/
structure Expression where
  featureToken : Token
  constantToken : Option Token
  not : Bool
  deriving DecidableEq, Repr

/-- Feature name of an expression (the `feature` getter). -/
def Expression.feature (e : Expression) : String :=
  e.featureToken.text

/-- Constant of an expression (the `constant` getter): the string value of
the constant token if truthy, else its text if truthy, else absent. -/
def Expression.constant (e : Expression) : Option String :=
  match e.constantToken with
  | none => none
  | some t =>
    match t.stringValue with
    | some sv =>
        if sv ≠ "" then some sv
        else if t.text ≠ "" then some t.text else none
    | none => if t.text ≠ "" then some t.text else none

/-- Conjunction of expressions (class `Query`). -/
structure Query where
  expressions : List Expression
  deriving DecidableEq, Repr

/-- Parse one expression (`Expression.parse`): an identifier with an
optional colon-separated constant, a `not` prefix that may not be doubled,
or a parenthesised expression.  The fuel only bounds the recursion depth
and is always sufficient. -/
def Expression.parse :
    Nat → Scanner → Bool → Bool → Except MediaQueryError (Expression × Scanner)
  | 0, _, _, _ => .error fuelExhausted
  | fuel + 1, cursor, isNotted, inParen => do
    let cursor ← takeWhitespace cursor
    match cursor.kind with
    | Kind.Identifier => do
        let (feature, cursor) ← cursor.take
        let cursor ← takeWhitespace cursor
        if cursor.kind = Kind.Colon then do
          let (_, cursor) ← cursor.take
          let cursor ← takeWhitespace cursor
          match cursor.kind with
          | Kind.NumericLiteral | Kind.BooleanLiteral
          | Kind.Identifier | Kind.StringLiteral => do
              let (constant, cursor) ← cursor.take
              .ok (⟨feature, some constant, isNotted⟩, cursor)
          | _ =>
              .error ⟨"Expected one of \x7bNumber, Boolean, Identifier, String\x7d, found token "
                        ++ jsonQuote cursor.tokText,
                      cursor.position.line, cursor.position.column⟩
        else .ok (⟨feature, none, isNotted⟩, cursor)
    | Kind.NotKeyword =>
        if isNotted then
          .error ⟨"Expression specified NOT twice",
                  cursor.position.line, cursor.position.column⟩
        else do
          let (_, cursor) ← cursor.take
          Expression.parse fuel cursor true inParen
    | Kind.OpenParen => do
        let (_, cursor) ← cursor.take
        let (result, cursor) ← Expression.parse fuel cursor isNotted inParen
        let cursor ← takeWhitespace cursor
        if cursor.kind ≠ Kind.CloseParen then
          .error ⟨"Expected close parenthesis for expression, found "
                    ++ jsonQuote cursor.tokText,
                  cursor.position.line, cursor.position.column⟩
        else do
          let (_, cursor) ← cursor.take
          .ok (result, cursor)
    | _ =>
        .error ⟨"Expected expression, found " ++ jsonQuote cursor.tokText,
                cursor.position.line, cursor.position.column⟩

/-- Loop of `Query.parse`: parse expressions joined by `and`. -/
def Query.parseAux :
    Nat → Scanner → List Expression → Except MediaQueryError (Query × Scanner)
  | 0, _, _ => .error fuelExhausted
  | fuel + 1, cursor, acc => do
    let (e, cursor) ← Expression.parse (cursor.text.length + 2) cursor false false
    let cursor ← takeWhitespace cursor
    if cursor.kind = Kind.AndKeyword then do
      let (_, cursor) ← cursor.take
      Query.parseAux fuel cursor (acc ++ [e])
    else .ok (⟨acc ++ [e]⟩, cursor)

/-- Parse one query (`Query.parse`): leading whitespace, then the
`and`-joined expression loop. -/
def Query.parse (cursor : Scanner) : Except MediaQueryError (Query × Scanner) := do
  let cursor ← takeWhitespace cursor
  Query.parseAux (cursor.text.length + 2) cursor []

/-- Parsed query list (class `QueryList`): the comma-separated queries and
the captured parse error, if any. -/
structure QueryList where
  queries : List Query
  error : Option MediaQueryError
  deriving DecidableEq, Repr

/-- Validity flag of a query list (the `isValid` getter: no error). -/
def QueryList.isValid (q : QueryList) : Bool :=
  q.error.isNone

/-- Query-list parse loop: the generator `QueryList.parseQuery` combined
with the `try`-wrapped push loop of `QueryList.parse`.  Queries are
accumulated as they are yielded; a thrown error is captured together with
the queries accumulated so far. -/
def QueryList.parseQueries : Nat → Scanner → List Query → QueryList
  | 0, _, acc => ⟨acc, some fuelExhausted⟩
  | fuel + 1, cursor, acc =>
    match takeWhitespace cursor with
    | .error e => ⟨acc, some e⟩
    | .ok cursor =>
      if cursor.eof then ⟨acc, none⟩
      else
        match Query.parse cursor with
        | .error e => ⟨acc, some e⟩
        | .ok (q, cursor) =>
          let acc := acc ++ [q]
          match takeWhitespace cursor with
          | .error e => ⟨acc, some e⟩
          | .ok cursor =>
            if cursor.eof then ⟨acc, none⟩
            else
              match cursor.kind with
              | Kind.Comma =>
                (match cursor.take with
                 | .error e => ⟨acc, some e⟩
                 | .ok (_, cursor) => QueryList.parseQueries fuel cursor acc)
              | Kind.EndOfFile => ⟨acc, none⟩
              | _ =>
                ⟨acc, some ⟨"Expected comma, found " ++ jsonQuote cursor.tokText,
                            cursor.position.line, cursor.position.column⟩⟩

/-- Parse a query list from a scanner (`QueryList.parse`): starts the
scanner inside the `try`, then runs the push loop; any thrown error is
stored on the result instead of propagating. -/
def QueryList.parse (cursor : Scanner) : QueryList :=
  match cursor.scan with
  | .error e => ⟨[], some e⟩
  | .ok cursor => QueryList.parseQueries (cursor.text.length + 2) cursor []

/-- Entry point `parseQuery(text)` of media-query.js. -/
def parseQuery (text : String) : QueryList :=
  QueryList.parse (Scanner.init text)

/-- Context values handed to `QueryList.match` (the `properties` record).
JavaScript numbers are modelled as integers carrying their decimal
rendering; the claims only use booleans and strings. -/
inductive JSValue where
  | str (s : String)
  | num (n : Int)
  | bool (b : Bool)
  | null
  | arr (elems : List JSValue)
  | obj

/-- Coercion of a present context value to a string, following the
`typeof` switch of `stringValue`: strings, numbers and booleans stringify;
null coerces to "true"; an array coerces to the coercion of its first
element or "true" when that is absent or falsy; other objects coerce to
"true". -/
def stringValueV : JSValue → String
  | .str s => s
  | .num n => toString n
  | .bool b => if b then "true" else "false"
  | .null => "true"
  | .arr [] => "true"
  | .arr (v :: _) => let r := stringValueV v; if r = "" then "true" else r
  | .obj => "true"

/-- Module function `stringValue` of media-query.js: an absent value
(undefined) coerces to undefined, anything else to a string. -/
def stringValue : Option JSValue → Option String
  | none => none
  | some v => some (stringValueV v)

/-- Evaluation context: a map from feature names to context values,
with `none` for an absent key. -/
def MQContext := String → Option JSValue

/-- Truthiness of an optional string as JavaScript sees it: present and
non-empty. -/
def truthy : Option String → Bool
  | some s => s ≠ ""
  | none => false

/-- Match one expression against the coerced context value, following the
branch structure of `QueryList.match`: `true` models the inner `continue`
(the expression matches), `false` models `continue queries` (it does not). -/
def Expression.matchesValue (e : Expression) (contextValue : Option String) : Bool :=
  if e.not then
    if truthy contextValue then
      if truthy e.constant ∧ contextValue ≠ e.constant then true
      else if ¬ truthy e.constant ∧ contextValue = some "false" then true
      else false
    else
      if ¬ truthy e.constant ∨ contextValue = some "false" then true
      else false
  else
    if truthy contextValue then
      if contextValue = e.constant ∨
         (contextValue ≠ some "false" ∧ ¬ truthy e.constant) then true
      else false
    else
      if e.constant = some "false" then true
      else false

/-- Match one expression against a context. -/
def Expression.matchesIn (e : Expression) (ctx : MQContext) : Bool :=
  e.matchesValue (stringValue (ctx e.feature))

/-- Match a whole query (conjunction): every expression must match. -/
def Query.matchesIn (q : Query) (ctx : MQContext) : Bool :=
  q.expressions.all (fun e => e.matchesIn ctx)

/-- Evaluate a query list against a context (`QueryList.match`): false when
invalid, otherwise the disjunction over the queries. -/
def QueryList.matchContext (ql : QueryList) (ctx : MQContext) : Bool :=
  ql.isValid && ql.queries.any (fun q => q.matchesIn ctx)

/-- Lexicographic three-way comparison of character lists, the model of
JavaScript `localeCompare` used by `StringKey.compare` (the real call is
locale-sensitive; on the plain ASCII identities of this registry it is
code-point order). -/
def lexCompare : List Char → List Char → Int
  | [], [] => 0
  | [], _ :: _ => -1
  | _ :: _, [] => 1
  | a :: as, b :: bs =>
      if a.toNat < b.toNat then -1
      else if b.toNat < a.toNat then 1
      else lexCompare as bs

/-- String comparison via `lexCompare`. -/
def localeCompare (a b : String) : Int :=
  lexCompare a.data b.data

/-- Comparator `StringKey.compare`: locale comparison of two truthy
strings, with an empty (falsy) string ordered below everything.  The words
b-tree uses the sorted-btree default comparator, which agrees with this one
on strings. -/
def stringCompare (a b : String) : Int :=
  if a ≠ "" ∧ b ≠ "" then localeCompare a b
  else if a ≠ "" then 1
  else if b ≠ "" then -1
  else 0

/-- Lookup in a sorted association list modelling `BTree.get`: the entry
comparing equal to the key. -/
def btGet {α : Type} : List (String × α) → String → Option α
  | [], _ => none
  | (k', v) :: rest, k =>
      if stringCompare k k' = 0 then some v else btGet rest k

/-- Insertion into a sorted association list modelling `BTree.set`:
replaces the entry comparing equal, otherwise inserts in order. -/
def btSet {α : Type} : List (String × α) → String → α → List (String × α)
  | [], k, v => [(k, v)]
  | (k', v') :: rest, k, v =>
      if stringCompare k k' < 0 then (k, v) :: (k', v') :: rest
      else if stringCompare k k' = 0 then (k, v) :: rest
      else (k', v') :: btSet rest k v

/-- Model of a JavaScript `Set` of target ids: an insertion-ordered list
without duplicates. -/
abbrev JsSet := List Nat

/-- Model of `Set.prototype.add`: append the element unless present. -/
def jsAdd (s : JsSet) (n : Nat) : JsSet :=
  if n ∈ s then s else s ++ [n]

/-- Model of `new Set(iterable)`: add the elements in order. -/
def jsNew (l : List Nat) : JsSet :=
  l.foldl jsAdd []

/-- Word characters for the `split(/(\W+)/g)` tokenisation of `addWord`:
ASCII letters, digits and underscore. -/
def isWordChar (c : Char) : Bool :=
  ('a' ≤ c && c ≤ 'z') || ('A' ≤ c && c ≤ 'Z') || isDigit c || c = '_'

/-- Split a string into the alternating word/separator runs produced by
`split(/(\W+)/g)`: word runs at even positions (possibly empty at the two
ends), separator runs at odd positions.  The fuel is at least the length
plus one and each step consumes at least one character. -/
def splitRunsAux : Nat → List Char → List String
  | 0, _ => []
  | fuel + 1, l =>
      let w := l.takeWhile (fun c => isWordChar c)
      let rest := l.drop w.length
      match rest with
      | [] => [String.mk w]
      | _ =>
          let sep := rest.takeWhile (fun c => !isWordChar c)
          let rest2 := rest.drop sep.length
          String.mk w :: String.mk sep :: splitRunsAux fuel rest2

/-- Word/separator runs of a string. -/
def splitRuns (s : String) : List String :=
  splitRunsAux (s.data.length + 1) s.data

/-- All contiguous sub-runs considered by the double loop of `addWord`:
for every even start position and every even end position from it, the
join of the slice up to and including that end position. -/
def wordSliceList (ws : List String) : List String :=
  ((List.range ws.length).filter (fun w => w % 2 = 0)).flatMap (fun w =>
    ((List.range ws.length).filter (fun i => w ≤ i ∧ (i - w) % 2 = 0)).map
      (fun i => String.join ((ws.drop w).take (i + 1 - w))))

/-- Mutable per-key state: the sorted values map, the word index, and for
identity keys the short-name lookup structures (`identities` b-tree and
`idShortName` map). -/
structure KeyState where
  values : List (String × JsSet)
  words : List (String × JsSet)
  identities : List (String × JsSet)
  idShortName : List (String × String)
  deriving DecidableEq

/-- Empty key state (freshly constructed key). -/
def KeyState.empty : KeyState :=
  ⟨[], [], [], []⟩

/-- Add one id under one value in the sorted values map (`Key.addKey`). -/
def KeyState.addKey (st : KeyState) (each : String) (n : Nat) : KeyState :=
  match btGet st.values each with
  | some set => { st with values := btSet st.values each (jsAdd set n) }
  | none => { st with values := btSet st.values each (jsAdd [] n) }

/-- Add the word-index entries of one value (`Key.addWord`): every
contiguous sub-run of the tokenised value that is non-empty and contains
no space gets the id. -/
def KeyState.addWord (st : KeyState) (each : String) (n : Nat) : KeyState :=
  (wordSliceList (splitRuns each)).foldl
    (fun st s =>
      if s ≠ "" ∧ !(s.data.contains ' ') then
        match btGet st.words s with
        | some set => { st with words := btSet st.words s (jsAdd set n) }
        | none => { st with words := btSet st.words s (jsAdd [] n) }
      else st) st

/-- Declaration of one key of a schema: its primary identity, the tail of
alternative identities (the source constructor takes either a bare string,
modelled by an empty tail, or an array whose head is the identity), the
accessor, and whether the key is an `IdentityKey`.  The accessor returns
the list of derived values: the source normalises a falsy result to
nothing and a scalar to a one-element array, which the list form already
expresses.  `SemverKey` is outside the modelled schema space; its
`rangeMatch` loop is modelled on string keys with the semantic-version
range test (an external library) abstracted as a predicate. -/
structure KeySpec (G : Type) where
  name : String
  altTail : List String
  accessor : G → List String
  isIdentityKey : Bool

/-- One key of a live schema: its declaration plus its mutable state
(class `Key` and subclasses of indexer.js). -/
structure IKey (G : Type) where
  identity : String
  alternativeIdentities : List String
  accessor : G → List String
  isIdentityKey : Bool
  state : KeyState

/-- Key construction from a declaration: identity is the head of the
alternative identities; state starts empty. -/
def mkKey {G : Type} (sp : KeySpec G) : IKey G :=
  { identity := sp.name, alternativeIdentities := sp.name :: sp.altTail,
    accessor := sp.accessor, isIdentityKey := sp.isIdentityKey,
    state := KeyState.empty }

/-- Insert derived values for one target (`Key.insertKey`): add each value
to the values map and the word index.  The `nestedKeys` array of the
source is never populated anywhere in the code, so the child-key recursion
is a no-op and is omitted. -/
def IKey.insertKey {G : Type} (k : IKey G) (n : Nat) (value : List String) : IKey G :=
  { k with state := value.foldl (fun st each => (st.addKey each n).addWord each n) k.state }

/-- Process one target (`Key.insert`): derive the values via the accessor
and insert them; a falsy or empty derivation inserts nothing. -/
def IKey.insert {G : Type} (k : IKey G) (graph : G) (n : Nat) : IKey G :=
  match k.accessor graph with
  | [] => k
  | value => k.insertKey n value

/-- Split on slash characters (`value.split('/')`), structurally on a
fuel that always suffices (each step consumes at least one character). -/
def splitOnSlashAux : Nat → List Char → List String
  | 0, _ => []
  | fuel + 1, l =>
      let w := l.takeWhile (fun c => c ≠ '/')
      let rest := l.drop w.length
      match rest with
      | [] => [String.mk w]
      | _ :: rest2 => String.mk w :: splitOnSlashAux fuel rest2

/-- Slash components of a string. -/
def splitOnSlash (s : String) : List String :=
  splitOnSlashAux (s.data.length + 1) s.data

/-- Rejoin components with slashes (`v.slice(p).join('/')`). -/
def joinSlash : List String → String
  | [] => ""
  | [x] => x
  | x :: rest => x ++ "/" ++ joinSlash rest

/-- Trailing path suffix of `n` segments (function `shortName` of
indexer.js): split on slashes and keep the last `n` components (all of
them when there are fewer; the truncated subtraction models the clamp of
the source). -/
def shortName (value : String) (n : Nat) : String :=
  let v := splitOnSlash value
  joinSlash (v.drop (v.length - n))

/-- An entry of the identity values map: the full identity and its ids. -/
abbrev IdEntry := String × JsSet

/-- Append a value under a key of a `ManyMap` (insertion-ordered map of
arrays): extends the existing array or appends a new key at the end. -/
def manyMapPush : List (String × List IdEntry) → String → IdEntry →
    List (String × List IdEntry)
  | [], k, v => [(k, [v])]
  | (k', vs) :: rest, k, v =>
      if k' = k then (k', vs ++ [v]) :: rest
      else (k', vs) :: manyMapPush rest k v

/-- Delete a key of a `ManyMap`. -/
def manyMapDelete : List (String × List IdEntry) → String →
    List (String × List IdEntry)
  | [], _ => []
  | (k', vs) :: rest, k =>
      if k' = k then rest else (k', vs) :: manyMapDelete rest k

/-- Set a key of an insertion-ordered string map (`Map.set`). -/
def mapSetStr : List (String × String) → String → String →
    List (String × String)
  | [], k, v => [(k, v)]
  | (k', v') :: rest, k, v =>
      if k' = k then (k, v) :: rest
      else (k', v') :: mapSetStr rest k v

/-- One pass of the `doneInsertion` while-loop of `IdentityKey`: iterate
the snapshot of the map, delete each key, keep unique entries (recording
the identity-to-ids and identity-to-short-name results) and re-push
colliding entries under a one-segment-longer suffix.  The snapshot pairs
carry their snapshot-time arrays; a push never targets a still-pending
snapshot key (pushed keys have more segments, or equal the already-deleted
own key), so this matches the aliasing behaviour of the source. -/
def doneInsertionPass (n : Nat) :
    List (String × List IdEntry) → List (String × List IdEntry) →
    List (String × JsSet) → List (String × String) →
    List (String × List IdEntry) × List (String × JsSet) × List (String × String)
  | [], cur, idents, short => (cur, idents, short)
  | (snKey, artifacts) :: restSnap, cur, idents, short =>
    let cur := manyMapDelete cur snKey
    match artifacts with
    | [e] =>
        doneInsertionPass n restSnap cur
          (btSet idents snKey e.2) (mapSetStr short e.1 snKey)
    | es =>
        let cur := es.foldl (fun cur e => manyMapPush cur (shortName e.1 n) e) cur
        doneInsertionPass n restSnap cur idents short

/-- While-loop of `IdentityKey.doneInsertion`: repeat passes with a
growing suffix length until the map is empty.  The fuel given by the
caller exceeds the total number of path segments, which bounds the number
of passes needed (identities are pairwise distinct map keys). -/
def doneInsertionLoop :
    Nat → Nat → List (String × List IdEntry) →
    List (String × JsSet) → List (String × String) →
    List (String × JsSet) × List (String × String)
  | 0, _, _, idents, short => (idents, short)
  | fuel + 1, n, ids, idents, short =>
    if ids.isEmpty then (idents, short)
    else
      let (ids', idents', short') := doneInsertionPass (n + 1) ids ids idents short
      doneInsertionLoop fuel (n + 1) ids' idents' short'

/-- Finalisation hook (`Key.doneInsertion`, overridden by
`IdentityKey.doneInsertion`): for identity keys, compute the shortest
unique trailing suffix of every identity in the values map; a no-op for
other keys. -/
def IKey.doneInsertion {G : Type} (k : IKey G) : IKey G :=
  if k.isIdentityKey then
    let ids := k.state.values.foldl
      (fun m e => manyMapPush m (shortName e.1 1) e) []
    let fuel := (k.state.values.map (fun e => (splitOnSlash e.1).length)).sum + 2
    let (idents, short) :=
      doneInsertionLoop fuel 1 ids k.state.identities k.state.idShortName
    { k with state := { k.state with identities := idents, idShortName := short } }
  else k

/-- Lookup of the short name computed for a full identity
(`IdentityKey.getShortNameOf`; the `Map.get` uses exact string equality). -/
def IKey.getShortNameOf {G : Type} (k : IKey G) (id : String) : Option String :=
  (k.state.idShortName.find? (fun p => p.1 = id)).map Prod.snd

/-- Persisted form of one key (`Key.serialize`): value-to-ids and
word-to-ids lists. -/
structure SerializedKey where
  keys : List (String × List Nat)
  words : List (String × List Nat)
  deriving DecidableEq, Repr

/-- Serialize a key (`Key.serialize`): spread each set into a list. -/
def IKey.serialize {G : Type} (k : IKey G) : SerializedKey :=
  ⟨k.state.values.map (fun e => (e.1, e.2)),
   k.state.words.map (fun e => (e.1, e.2))⟩

/-- Deserialize into a key state (`Key.deserialize`): set every persisted
entry into the values and words maps (the `StringKey` coercion is the
identity; `new Set(ids)` adds the listed ids in order). -/
def KeyState.deserializeKeys (st : KeyState) (content : SerializedKey) : KeyState :=
  let st1 := { st with
    values := content.keys.foldl
      (fun m (p : String × List Nat) => btSet m p.1 (jsNew p.2)) st.values }
  { st1 with
    words := content.words.foldl
      (fun m (p : String × List Nat) => btSet m p.1 (jsNew p.2)) st1.words }

/-- Deserialize a key; `IdentityKey.deserialize` additionally recomputes
the short names. -/
def IKey.deserialize {G : Type} (k : IKey G) (content : SerializedKey) : IKey G :=
  let k' := { k with state := k.state.deserializeKeys content }
  if k.isIdentityKey then k'.doneInsertion else k'

/-- Clone the state of a key into a freshly constructed one
(`Key.cloneKey` and the `IdentityKey.cloneKey` override): values and words
always, the short-name structures for identity keys. -/
def IKey.cloneKey {G : Type} (dst src : IKey G) : IKey G :=
  let st := { dst.state with values := src.state.values, words := src.state.words }
  if dst.isIdentityKey then
    { dst with state :=
        { st with identities := src.state.identities,
                  idShortName := src.state.idShortName } }
  else { dst with state := st }

/-- Live schema (class `IndexSchema`): the insertion-ordered key
collection and the currently selected id set (`none` means everything). -/
structure IndexSchema (G : Type) where
  mapOfKeyObjects : List (IKey G)
  selectedElements : Option JsSet

/-- Register a key in a schema key map (`Map.set` keyed by identity). -/
def schemaSetKey {G : Type} (ks : List (IKey G)) (k : IKey G) : List (IKey G) :=
  if ks.any (fun k' => k'.identity = k.identity) then
    ks.map (fun k' => if k'.identity = k.identity then k else k')
  else ks ++ [k]

/-- Construct a schema from key declarations (the subclass constructor
registering each key). -/
def mkSchema {G : Type} (specs : List (KeySpec G)) : IndexSchema G :=
  ⟨specs.foldl (fun ks sp => schemaSetKey ks (mkKey sp)) [], none⟩

/-- Narrow the selected set (`IndexSchema.filter`): intersect with the
given ids, or select exactly the given ids when nothing was selected. -/
def IndexSchema.filter {G : Type} (sch : IndexSchema G) (idsToKeep : List Nat) :
    IndexSchema G :=
  match sch.selectedElements with
  | some sel =>
      let selected := idsToKeep.foldl
        (fun acc x => if x ∈ sel then jsAdd acc x else acc) []
      { sch with selectedElements := some selected }
  | none => { sch with selectedElements := some (jsNew idsToKeep) }

/-- Find a declared key by identity. -/
def IndexSchema.findKey {G : Type} (sch : IndexSchema G) (kid : String) :
    Option (IKey G) :=
  sch.mapOfKeyObjects.find? (fun k => k.identity = kid)

/-- The searchable index (class `Index`): the target sequence and the live
schema. -/
structure Index (G T : Type) where
  indexOfTargets : List T
  indexSchema : IndexSchema G

/-- Index construction (`new Index(indexConstructor)`). -/
def Index.create {G T : Type} (specs : List (KeySpec G)) : Index G T :=
  ⟨[], mkSchema specs⟩

/-- Insert one target (`Index.insert`): append it, then feed the content
to every declared key under the new id. -/
def Index.insert {G T : Type} (idx : Index G T) (content : G) (target : T) :
    Index G T :=
  let n := idx.indexOfTargets.length
  { indexOfTargets := idx.indexOfTargets ++ [target],
    indexSchema := { idx.indexSchema with
      mapOfKeyObjects := idx.indexSchema.mapOfKeyObjects.map (fun k => k.insert content n) } }

/-- Finalize all keys (`Index.doneInsertion`). -/
def Index.doneInsertion {G T : Type} (idx : Index G T) : Index G T :=
  { idx with indexSchema := { idx.indexSchema with
      mapOfKeyObjects := idx.indexSchema.mapOfKeyObjects.map (fun k => k.doneInsertion) } }

/-- Query view (the `where` getter, renamed because `where` is reserved in
Lean): a fresh index over the same targets whose keys are clones of the
master keys, returned as its schema with nothing selected. -/
def Index.whereView {G T : Type} (idx : Index G T) : IndexSchema G :=
  { mapOfKeyObjects := idx.indexSchema.mapOfKeyObjects.map
      (fun impl => IKey.cloneKey { impl with state := KeyState.empty } impl),
    selectedElements := none }

/-- Persisted form of an index (`Index.serialize`). -/
structure SerializedIndex (T : Type) where
  items : List T
  indexes : List (String × SerializedKey)

/-- Serialize an index: the targets plus every key under its identity. -/
def Index.serialize {G T : Type} (idx : Index G T) : SerializedIndex T :=
  ⟨idx.indexOfTargets,
   idx.indexSchema.mapOfKeyObjects.map (fun k => (k.identity, k.serialize))⟩

/-- Lookup a persisted key map by name. -/
def lookupContent (content : List (String × SerializedKey)) (alt : String) :
    Option SerializedKey :=
  (content.find? (fun p => p.1 = alt)).map Prod.snd

/-- First alternative identity present in the persisted content. -/
def findAlt (content : List (String × SerializedKey)) :
    List String → Option SerializedKey
  | [] => none
  | a :: as =>
      match lookupContent content a with
      | some sk => some sk
      | none => findAlt content as

/-- Deserialize every declared key (`IndexSchema.deserialize`): match each
key by any of its alternative identities, throwing when none is present. -/
def deserializeKeyList {G : Type} :
    List (IKey G) → List (String × SerializedKey) → Except String (List (IKey G))
  | [], _ => .ok []
  | k :: rest, content =>
      match findAlt content k.alternativeIdentities with
      | some sk => do
          let rest' ← deserializeKeyList rest content
          .ok (k.deserialize sk :: rest')
      | none => .error ("Failed to deserialize index " ++ k.identity)

/-- Deserialize an index (`Index.deserialize`): replace the target
sequence and refill every key. -/
def Index.deserialize {G T : Type} (idx : Index G T) (content : SerializedIndex T) :
    Except String (Index G T) := do
  let ks ← deserializeKeyList idx.indexSchema.mapOfKeyObjects content.indexes
  .ok { indexOfTargets := content.items,
        indexSchema := { idx.indexSchema with mapOfKeyObjects := ks } }

/-- Union of the id sets of the entries in a comparator range of the
sorted values map (the `forRange` accumulation of `greaterThan` and
`lessThan`). -/
def rangeSet (l : List (String × JsSet)) (lo hi : String)
    (includeHi : Bool) : JsSet :=
  (l.filter (fun e => stringCompare lo e.1 ≤ 0 ∧
      (if includeHi then stringCompare e.1 hi ≤ 0 else stringCompare e.1 hi < 0))).foldl
    (fun acc e => e.2.foldl jsAdd acc) []

/-- Ids collected by the linear-scan operations (`startsWith`, `endsWith`,
`rangeMatch`): every id of an entry whose value satisfies the predicate,
restricted to the current selection. -/
def linearScanSet (sel : Option JsSet)
    (values : List (String × JsSet)) (p : String → Bool) : JsSet :=
  values.foldl
    (fun acc e =>
      e.2.foldl
        (fun acc id =>
          if (match sel with | none => true | some s => id ∈ s) then
            (if p e.1 then jsAdd acc id else acc)
          else acc) acc) []

/-- Exact-match query (`Key.equals`): filters by the values-map entry of
the value; an undefined or empty value leaves the schema untouched.
A query against an undeclared key name is modelled as a no-op (it would be
a type error in the source). -/
def keyEquals {G : Type} (sch : IndexSchema G) (kid : String)
    (value : Option String) : IndexSchema G :=
  match sch.findKey kid with
  | none => sch
  | some k =>
      match value with
      | some v =>
          if v ≠ "" then sch.filter ((btGet k.state.values v).getD []) else sch
      | none => sch

/-- Word-search query (`Key.contains`): filters by the word-index entry. -/
def keyContains {G : Type} (sch : IndexSchema G) (kid : String)
    (value : Option String) : IndexSchema G :=
  match sch.findKey kid with
  | none => sch
  | some k =>
      match value with
      | some v =>
          if v ≠ "" then sch.filter ((btGet k.state.words v).getD []) else sch
      | none => sch

/-- Range query (`Key.greaterThan`): when the map has a truthy maximum key
and the value is defined and non-empty, collect the range from the value
to the maximum inclusive; the filter is applied unconditionally. -/
def keyGreaterThan {G : Type} (sch : IndexSchema G) (kid : String)
    (value : Option String) : IndexSchema G :=
  match sch.findKey kid with
  | none => sch
  | some k =>
      let maxK := k.state.values.getLast?
      let set : JsSet :=
        match maxK, value with
        | some m, some v =>
            if m.1 ≠ "" ∧ v ≠ "" then rangeSet k.state.values v m.1 true else []
        | _, _ => []
      sch.filter set

/-- Range query (`Key.lessThan`): when the map has a truthy minimum key
and the value is defined and non-empty, collect the range from the minimum
to the value exclusive; the filter is applied unconditionally. -/
def keyLessThan {G : Type} (sch : IndexSchema G) (kid : String)
    (value : Option String) : IndexSchema G :=
  match sch.findKey kid with
  | none => sch
  | some k =>
      let minK := k.state.values.head?
      let set : JsSet :=
        match minK, value with
        | some m, some v =>
            if m.1 ≠ "" ∧ v ≠ "" then rangeSet k.state.values m.1 v false else []
        | _, _ => []
      sch.filter set

/-- Prefix query (`Key.startsWith`): linear scan over the values map. -/
def keyStartsWith {G : Type} (sch : IndexSchema G) (kid : String)
    (value : String) : IndexSchema G :=
  match sch.findKey kid with
  | none => sch
  | some k =>
      sch.filter (linearScanSet sch.selectedElements k.state.values
        (fun s => s.startsWith value))

/-- Suffix query (`Key.endsWith`): linear scan over the values map. -/
def keyEndsWith {G : Type} (sch : IndexSchema G) (kid : String)
    (value : String) : IndexSchema G :=
  match sch.findKey kid with
  | none => sch
  | some k =>
      sch.filter (linearScanSet sch.selectedElements k.state.values
        (fun s => s.endsWith value))

/-- Version-range query (`SemverKey.rangeMatch`): linear scan testing each
stored value, with the semantic-version range test abstracted as the
predicate `p` (the semver `Range` class is an external library). -/
def keyRangeMatch {G : Type} (sch : IndexSchema G) (kid : String)
    (p : String → Bool) : IndexSchema G :=
  match sch.findKey kid with
  | none => sch
  | some k =>
      sch.filter (linearScanSet sch.selectedElements k.state.values p)

/-- Identity lookup (`IdentityKey.nameOrShortNameIs`): filter by the
short-name map when the value is a known short name, otherwise fall back
to the exact identity match. -/
def keyNameOrShortNameIs {G : Type} (sch : IndexSchema G) (kid : String)
    (value : Option String) : IndexSchema G :=
  match sch.findKey kid with
  | none => sch
  | some k =>
      match value with
      | some v =>
          if v ≠ "" then
            match btGet k.state.identities v with
            | some ms => sch.filter ms
            | none => keyEquals sch kid value
          else sch
      | none => sch

/-- One filtering operation of a query chain, naming the key it is applied
to. -/
inductive QueryOp where
  | equalsOp (kid : String) (value : Option String)
  | containsOp (kid : String) (value : Option String)
  | greaterThanOp (kid : String) (value : Option String)
  | lessThanOp (kid : String) (value : Option String)
  | startsWithOp (kid : String) (value : String)
  | endsWithOp (kid : String) (value : String)
  | nameOrShortNameIsOp (kid : String) (value : Option String)
  | rangeMatchOp (kid : String) (p : String → Bool)

/-- Apply one operation to a schema. -/
def applyOp {G : Type} (sch : IndexSchema G) : QueryOp → IndexSchema G
  | .equalsOp kid v => keyEquals sch kid v
  | .containsOp kid v => keyContains sch kid v
  | .greaterThanOp kid v => keyGreaterThan sch kid v
  | .lessThanOp kid v => keyLessThan sch kid v
  | .startsWithOp kid v => keyStartsWith sch kid v
  | .endsWithOp kid v => keyEndsWith sch kid v
  | .nameOrShortNameIsOp kid v => keyNameOrShortNameIs sch kid v
  | .rangeMatchOp kid p => keyRangeMatch sch kid p

/-- Apply a chain of operations in order. -/
def applyChain {G : Type} (sch : IndexSchema G) (ops : List QueryOp) : IndexSchema G :=
  ops.foldl applyOp sch

/-- Build an index by a sequence of insert calls followed by
`doneInsertion` (the registry-load lifecycle). -/
def buildIndex {G T : Type} (specs : List (KeySpec G)) (inserts : List (G × T)) :
    Index G T :=
  (inserts.foldl (fun idx p => idx.insert p.1 p.2) (Index.create specs)).doneInsertion

/-- The empty evaluation context (no features present). -/
def mqEmptyContext : MQContext := fun _ => none

/-- Context mapping `espidf` to the boolean `true` and nothing else. -/
def mqEspidfTrueContext : MQContext :=
  fun s => if s = "espidf" then some (JSValue.bool true) else none

/-- Identity-key declaration over string targets whose content is the
identity itself (the `IdentityKey(this, i => i.id, 'id')` shape of the
registry schemas). -/
def identitySpec : KeySpec String :=
  ⟨"id", [], fun s => [s], true⟩

/-- The three-target index of the short-name scenario: identities
`a/b/x`, `a/c/x`, `a/b/y` inserted in that order and finalised. -/
def threeTargetIndex : Index String String :=
  buildIndex [identitySpec]
    [("a/b/x", "a/b/x"), ("a/c/x", "a/c/x"), ("a/b/y", "a/b/y")]

/-- Selected id set after `where.<kid>.equals(v)` on an index. -/
def equalsSelected {G T : Type} (idx : Index G T) (kid : String)
    (v : Option String) : Option JsSet :=
  (keyEquals idx.whereView kid v).selectedElements

/-- Round trip of an index through `serialize` and `deserialize` into a
fresh index over the same schema. -/
def roundTripIndex {G T : Type} (specs : List (KeySpec G)) (idx : Index G T) :
    Except String (Index G T) :=
  (Index.create specs).deserialize idx.serialize

/-- The two shared sorted structures of a key: its values map and its
word index. -/
def keyMaps {G : Type} (k : IKey G) : List (String × JsSet) × List (String × JsSet) :=
  (k.state.values, k.state.words)

/-- Ids stored exactly under a value in a key's sorted values map. -/
def idsAt {G : Type} (k : IKey G) (v : String) : JsSet :=
  (btGet k.state.values v).getD []

/-- Strict ascending-order invariant of a sorted association list. -/
def sortedKeyList {α : Type} (l : List (String × α)) : Prop :=
  l.Pairwise (fun p q => stringCompare p.1 q.1 < 0)

/-- Values map of the named key of a schema (empty when the key is not
declared). -/
def keyValuesOf {G : Type} (sch : IndexSchema G) (kid : String) :
    List (String × JsSet) :=
  match sch.findKey kid with
  | some k => k.state.values
  | none => []

/-- Ids stored exactly under a value in the named key of a schema. -/
def idsUnder {G : Type} (sch : IndexSchema G) (kid : String) (v : String) : JsSet :=
  (btGet (keyValuesOf sch kid) v).getD []

/-- Well-formedness of a values map as built by insertions: strictly
ascending keys and duplicate-free id sets. -/
def valuesInv (l : List (String × JsSet)) : Prop :=
  sortedKeyList l ∧ ∀ e ∈ l, (e.2 : List Nat).Nodup

/-- C1 (counterexample): the claim's truth-table rows for an absent
context value are inverted with respect to the code.  The claim asserts
that the single non-negated bare expression `espidf` matches the empty
context and that the single negated bare expression `not espidf` does not;
the evaluator returns exactly the opposite on both inputs. -/
theorem c1_counterexample :
    (parseQuery "espidf").matchContext mqEmptyContext = false ∧
    (parseQuery "not espidf").matchContext mqEmptyContext = true := by
  constructor <;> rfl

/-- C1 (amended): for an expression whose feature is absent from the
context, a non-negated expression matches exactly when its constant is the
string "false", and a negated expression matches exactly when its constant
is absent (the coerced value cannot equal "false" when it is absent). -/
theorem c1_absent_value_truth_table (e : Expression) (ctx : MQContext)
    (h : ctx e.feature = none) :
    e.matchesIn ctx =
      (if e.not then !(truthy e.constant)
       else decide (e.constant = some "false")) := by
  unfold Expression.matchesIn
  rw [h]
  unfold stringValue Expression.matchesValue
  cases hn : e.not <;> cases hc : truthy e.constant <;>
    simp [truthy, hc]

/-- Witness for `c1_absent_value_truth_table`: the bare negated expression
over `espidf` evaluated in the empty context matches. -/
theorem c1_witness :
    mqEmptyContext "espidf" = none ∧
    Expression.matchesIn
      ⟨⟨0, Kind.Identifier, "espidf", none⟩, none, true⟩ mqEmptyContext = true :=
  ⟨rfl,
   (c1_absent_value_truth_table
      ⟨⟨0, Kind.Identifier, "espidf", none⟩, none, true⟩ mqEmptyContext rfl).trans
     (by decide)⟩

/-- C2: parsing the query text `not espidf` and matching yields true on
the empty context and false on a context where `espidf` is true. -/
theorem c2_not_espidf_match :
    (parseQuery "not espidf").matchContext mqEmptyContext = true ∧
    (parseQuery "not espidf").matchContext mqEspidfTrueContext = false := by
  constructor <;> rfl

/-- C3 (counterexample): on the input `a,(` the parse error raised while
parsing the second query is captured, but the first query has already been
pushed, so the queries sequence of the invalid result is not empty. -/
theorem c3_counterexample :
    (parseQuery "a,(").error.isSome = true ∧
    (parseQuery "a,(").queries.length = 1 ∧
    (parseQuery "a,(").isValid = false := by
  refine ⟨rfl, rfl, rfl⟩

/-- C3 (amended): `QueryList.parse` never propagates a thrown scan or
parse error (it is total); whenever an error is raised it is stored in the
error field and the result is invalid, retaining the queries completed
before the error (which therefore need not be empty). -/
theorem c3_error_captured (text : String) :
    ((parseQuery text).error = none ∧ (parseQuery text).isValid = true) ∨
    (∃ e, (parseQuery text).error = some e ∧ (parseQuery text).isValid = false) := by
  cases h : (parseQuery text).error with
  | none => exact Or.inl ⟨rfl, by simp [QueryList.isValid, h]⟩
  | some e => exact Or.inr ⟨e, rfl, by simp [QueryList.isValid, h]⟩

/-- C4: indexing the three targets with identities `a/b/x`, `a/c/x` and
`a/b/y` and running `doneInsertion` assigns the short names `b/x`, `c/x`
and `y` respectively, and no two of the three short names coincide. -/
theorem c4_short_names :
    ((threeTargetIndex.indexSchema.findKey "id").map (fun k =>
      (k.getShortNameOf "a/b/x", k.getShortNameOf "a/c/x", k.getShortNameOf "a/b/y")) =
      some (some "b/x", some "c/x", some "y")) ∧
    (("b/x" : String) ≠ "c/x" ∧ ("b/x" : String) ≠ "y" ∧ ("c/x" : String) ≠ "y") := by
  exact ⟨rfl, by decide⟩

/-- Membership after a JavaScript set add. -/
theorem mem_jsAdd {l : JsSet} {x y : Nat} : y ∈ jsAdd l x ↔ y ∈ l ∨ y = x := by
  unfold jsAdd
  split
  · next hx =>
      constructor
      · exact fun h => Or.inl h
      · rintro (h | rfl)
        · exact h
        · exact hx
  · simp [List.mem_append]

/-- Membership in a fold of set adds. -/
theorem mem_foldl_jsAdd (l : List Nat) :
    ∀ (acc : JsSet) (y : Nat), y ∈ l.foldl jsAdd acc ↔ y ∈ acc ∨ y ∈ l := by
  induction l with
  | nil => simp
  | cons x xs ih =>
      intro acc y
      simp only [List.foldl_cons, ih, mem_jsAdd, List.mem_cons]
      tauto

/-- Membership in the set built from a list. -/
theorem mem_jsNew {l : List Nat} {y : Nat} : y ∈ jsNew l ↔ y ∈ l := by
  unfold jsNew
  simp [mem_foldl_jsAdd]

/-- Membership in the intersection fold performed by `IndexSchema.filter`
when a selection already exists. -/
theorem mem_filter_fold (ids : List Nat) (sel : JsSet) :
    ∀ (acc : JsSet) (y : Nat),
      y ∈ ids.foldl (fun acc x => if x ∈ sel then jsAdd acc x else acc) acc ↔
        y ∈ acc ∨ (y ∈ ids ∧ y ∈ sel) := by
  induction ids with
  | nil => simp
  | cons x xs ih =>
      intro acc y
      simp only [List.foldl_cons]
      by_cases hx : x ∈ sel
      · simp only [if_pos hx, ih, mem_jsAdd, List.mem_cons]
        constructor
        · rintro ((h | rfl) | h)
          · exact Or.inl h
          · exact Or.inr ⟨Or.inl rfl, hx⟩
          · exact Or.inr ⟨Or.inr h.1, h.2⟩
        · rintro (h | ⟨(rfl | h), hsel⟩)
          · exact Or.inl (Or.inl h)
          · exact Or.inl (Or.inr rfl)
          · exact Or.inr ⟨h, hsel⟩
      · simp only [if_neg hx, ih, List.mem_cons]
        constructor
        · rintro (h | h)
          · exact Or.inl h
          · exact Or.inr ⟨Or.inr h.1, h.2⟩
        · rintro (h | ⟨(rfl | h), hsel⟩)
          · exact Or.inl h
          · exact absurd hsel hx
          · exact Or.inr ⟨h, hsel⟩

/-- Every query operation either leaves the schema untouched or goes
through `IndexSchema.filter`. -/
theorem applyOp_shape {G : Type} (sch : IndexSchema G) (op : QueryOp) :
    applyOp sch op = sch ∨ ∃ ids, applyOp sch op = sch.filter ids := by
  have hEq : ∀ kid v, keyEquals sch kid v = sch ∨
      ∃ ids, keyEquals sch kid v = sch.filter ids := by
    intro kid v
    unfold keyEquals
    cases sch.findKey kid with
    | none => exact Or.inl rfl
    | some k =>
        cases v with
        | none => exact Or.inl rfl
        | some v =>
            by_cases hv : v = ""
            · simp [hv]
            · simp only [ne_eq, hv, not_false_eq_true, if_true]
              exact Or.inr ⟨_, rfl⟩
  cases op with
  | equalsOp kid v => exact hEq kid v
  | containsOp kid v =>
      simp only [applyOp]
      unfold keyContains
      cases sch.findKey kid with
      | none => exact Or.inl rfl
      | some k =>
          cases v with
          | none => exact Or.inl rfl
          | some v =>
              by_cases hv : v = ""
              · simp [hv]
              · simp only [ne_eq, hv, not_false_eq_true, if_true]
                exact Or.inr ⟨_, rfl⟩
  | greaterThanOp kid v =>
      simp only [applyOp]
      unfold keyGreaterThan
      cases sch.findKey kid with
      | none => exact Or.inl rfl
      | some k => exact Or.inr ⟨_, rfl⟩
  | lessThanOp kid v =>
      simp only [applyOp]
      unfold keyLessThan
      cases sch.findKey kid with
      | none => exact Or.inl rfl
      | some k => exact Or.inr ⟨_, rfl⟩
  | startsWithOp kid v =>
      simp only [applyOp]
      unfold keyStartsWith
      cases sch.findKey kid with
      | none => exact Or.inl rfl
      | some k => exact Or.inr ⟨_, rfl⟩
  | endsWithOp kid v =>
      simp only [applyOp]
      unfold keyEndsWith
      cases sch.findKey kid with
      | none => exact Or.inl rfl
      | some k => exact Or.inr ⟨_, rfl⟩
  | nameOrShortNameIsOp kid v =>
      simp only [applyOp]
      unfold keyNameOrShortNameIs
      cases sch.findKey kid with
      | none => exact Or.inl rfl
      | some k =>
          cases v with
          | none => exact Or.inl rfl
          | some v =>
              by_cases hv : v = ""
              · simp [hv]
              · simp only [ne_eq, hv, not_false_eq_true, if_true]
                cases btGet k.state.identities v with
                | some ms => exact Or.inr ⟨_, rfl⟩
                | none => exact hEq kid (some v)
  | rangeMatchOp kid p =>
      simp only [applyOp]
      unfold keyRangeMatch
      cases sch.findKey kid with
      | none => exact Or.inl rfl
      | some k => exact Or.inr ⟨_, rfl⟩

/-- C7: once a schema's selected set is narrowed, `filter` replaces it
with the intersection with the ids to keep, a subset of the previous
selection; consequently every query operation on such a schema yields a
selection that gains no id. -/
theorem c7_filter_shrinks {G : Type} (sch : IndexSchema G) (s : JsSet)
    (ids : List Nat) (h : sch.selectedElements = some s) :
    (∃ s', (sch.filter ids).selectedElements = some s' ∧
      (∀ y, y ∈ s' ↔ y ∈ ids ∧ y ∈ s) ∧ ∀ y ∈ s', y ∈ s) ∧
    (∀ op : QueryOp, ∃ s'', (applyOp sch op).selectedElements = some s'' ∧
      ∀ y ∈ s'', y ∈ s) := by
  have hfilter : ∀ ids' : List Nat, ∃ s', (sch.filter ids').selectedElements = some s' ∧
      (∀ y, y ∈ s' ↔ y ∈ ids' ∧ y ∈ s) ∧ ∀ y ∈ s', y ∈ s := by
    intro ids'
    unfold IndexSchema.filter
    rw [h]
    refine ⟨_, rfl, ?_, ?_⟩
    · intro y
      rw [mem_filter_fold]
      simp
    · intro y hy
      rw [mem_filter_fold] at hy
      rcases hy with h' | h'
      · cases h'
      · exact h'.2
  refine ⟨hfilter ids, ?_⟩
  intro op
  rcases applyOp_shape sch op with hop | ⟨ids', hop⟩
  · exact ⟨s, by rw [hop, h], fun y hy => hy⟩
  · rcases hfilter ids' with ⟨s', hs', _, hsub⟩
    exact ⟨s', by rw [hop, hs'], hsub⟩

/-- Witness for `c7_filter_shrinks`: a schema with selection
`[0, 1, 2]` filtered by `[1, 3]`. -/
theorem c7_witness :
    ((⟨[], some [0, 1, 2]⟩ : IndexSchema String).selectedElements = some [0, 1, 2]) ∧
    (∃ s', ((⟨[], some [0, 1, 2]⟩ : IndexSchema String).filter [1, 3]).selectedElements = some s' ∧
      (∀ y, y ∈ s' ↔ y ∈ [1, 3] ∧ y ∈ [0, 1, 2]) ∧ ∀ y ∈ s', y ∈ [0, 1, 2]) :=
  ⟨rfl, (c7_filter_shrinks ⟨[], some [0, 1, 2]⟩ [0, 1, 2] [1, 3] rfl).1⟩


/-- Characters with equal code points are equal. -/
theorem char_toNat_inj {a b : Char} (h : a.toNat = b.toNat) : a = b :=
  Char.ext (UInt32.toNat.inj h)

/-- The lexicographic comparison of a list with itself is zero. -/
theorem lexCompare_self (l : List Char) : lexCompare l l = 0 := by
  induction l with
  | nil => rfl
  | cons c cs ih => simp [lexCompare, ih]

/-- The lexicographic comparison is zero exactly on equal lists. -/
theorem lexCompare_eq_zero {a b : List Char} : lexCompare a b = 0 ↔ a = b := by
  induction a generalizing b with
  | nil => cases b <;> simp [lexCompare]
  | cons c cs ih =>
      cases b with
      | nil => simp [lexCompare]
      | cons d ds =>
          simp only [lexCompare]
          by_cases h1 : c.toNat < d.toNat
          · simp only [if_pos h1, List.cons.injEq]
            constructor
            · intro h; cases h
            · rintro ⟨hc, _⟩
              subst hc
              omega
          · by_cases h2 : d.toNat < c.toNat
            · simp only [if_neg h1, if_pos h2, List.cons.injEq]
              constructor
              · intro h; cases h
              · rintro ⟨hc, _⟩
                subst hc
                omega
            · have hcd : c = d := char_toNat_inj (by omega)
              subst hcd
              simp [ih]

/-- Swapping the arguments negates the lexicographic comparison. -/
theorem lexCompare_swap (a : List Char) : ∀ b, lexCompare b a = -(lexCompare a b) := by
  induction a with
  | nil => intro b; cases b <;> rfl
  | cons c cs ih =>
      intro b
      cases b with
      | nil => rfl
      | cons d ds =>
          simp only [lexCompare]
          by_cases h1 : c.toNat < d.toNat
          · have h2 : ¬ d.toNat < c.toNat := by omega
            simp [h1, h2]
          · by_cases h2 : d.toNat < c.toNat
            · simp [h1, h2]
            · simp [h1, h2, ih ds]

/-- Transitivity of the strict lexicographic order. -/
theorem lexCompare_lt_trans {a b c : List Char} :
    lexCompare a b < 0 → lexCompare b c < 0 → lexCompare a c < 0 := by
  induction a generalizing b c with
  | nil =>
      intro h1 h2
      cases b with
      | nil => simp [lexCompare] at h1
      | cons d ds =>
          cases c with
          | nil => simp [lexCompare] at h2
          | cons e es => simp [lexCompare]
  | cons x xs ih =>
      intro h1 h2
      cases b with
      | nil => simp [lexCompare] at h1
      | cons y ys =>
          cases c with
          | nil => simp [lexCompare] at h2
          | cons z zs =>
              simp only [lexCompare] at h1 h2 ⊢
              by_cases hxy : x.toNat < y.toNat
              · by_cases hyz : y.toNat < z.toNat
                · have hxz : x.toNat < z.toNat := by omega
                  simp [hxz]
                · by_cases hzy : z.toNat < y.toNat
                  · simp [hyz, hzy] at h2
                  · have hy : y = z := char_toNat_inj (by omega)
                    subst hy
                    simp [hxy]
              · by_cases hyx : y.toNat < x.toNat
                · simp [hxy, hyx] at h1
                · have hx : x = y := char_toNat_inj (by omega)
                  subst hx
                  by_cases hxz : x.toNat < z.toNat
                  · simp [hxz]
                  · by_cases hzx : z.toNat < x.toNat
                    · simp [hxz, hzx] at h2
                    · simp only [if_neg hxz, if_neg hzx]
                      simp only [if_neg hxy, if_neg hyx] at h1
                      simp only [if_neg hxz, if_neg hzx] at h2
                      exact ih h1 h2

/-- String equality is list equality of the character data. -/
theorem string_eq_iff_data {a b : String} : a = b ↔ a.data = b.data := by
  cases a
  cases b
  exact ⟨fun h => by cases h; rfl, fun h => by cases h; rfl⟩

/-- The `StringKey` comparator agrees with the bare lexicographic
comparison: the special-casing of falsy (empty) strings is subsumed by the
order, which already places the empty string below everything. -/
theorem stringCompare_eq_lex (a b : String) :
    stringCompare a b = lexCompare a.data b.data := by
  unfold stringCompare localeCompare
  by_cases ha : a = ""
  · by_cases hb : b = ""
    · subst ha
      subst hb
      rfl
    · have hbd : b.data ≠ [] := by
        intro h
        exact hb (string_eq_iff_data.mpr (by rw [h]))
      subst ha
      cases hd : b.data with
      | nil => exact absurd hd hbd
      | cons c cs => simp [hb, hd, lexCompare]
  · by_cases hb : b = ""
    · have had : a.data ≠ [] := by
        intro h
        exact ha (string_eq_iff_data.mpr (by rw [h]))
      subst hb
      cases hd : a.data with
      | nil => exact absurd hd had
      | cons c cs => simp [ha, hd, lexCompare]
    · simp [ha, hb]

/-- The string comparator is zero exactly on equal strings. -/
theorem stringCompare_eq_zero {a b : String} : stringCompare a b = 0 ↔ a = b := by
  rw [stringCompare_eq_lex, lexCompare_eq_zero]
  exact string_eq_iff_data.symm

/-- The string comparator of a string with itself is zero. -/
theorem stringCompare_self (a : String) : stringCompare a a = 0 :=
  stringCompare_eq_zero.mpr rfl

/-- Swapping the arguments negates the string comparator. -/
theorem stringCompare_swap (a b : String) : stringCompare b a = -(stringCompare a b) := by
  rw [stringCompare_eq_lex, stringCompare_eq_lex, lexCompare_swap]

/-- Transitivity of the strict order induced by the string comparator. -/
theorem stringCompare_lt_trans {a b c : String} :
    stringCompare a b < 0 → stringCompare b c < 0 → stringCompare a c < 0 := by
  rw [stringCompare_eq_lex, stringCompare_eq_lex, stringCompare_eq_lex]
  exact lexCompare_lt_trans

/-- Asymmetry of the strict order induced by the string comparator. -/
theorem stringCompare_lt_asymm {a b : String} (h : stringCompare a b < 0) :
    ¬ stringCompare b a < 0 := by
  rw [stringCompare_swap]
  omega

/-- Trichotomy for the string comparator. -/
theorem stringCompare_trichotomy (a b : String) :
    stringCompare a b < 0 ∨ a = b ∨ stringCompare b a < 0 := by
  rcases lt_trichotomy (stringCompare a b) 0 with h | h | h
  · exact Or.inl h
  · exact Or.inr (Or.inl (stringCompare_eq_zero.mp h))
  · refine Or.inr (Or.inr ?_)
    rw [stringCompare_swap]
    omega

/-- Every entry of a b-tree set result is the new entry or an old one. -/
theorem btSet_mem {α : Type} {l : List (String × α)} {k : String} {v : α} :
    ∀ e ∈ btSet l k v, e = (k, v) ∨ e ∈ l := by
  induction l with
  | nil =>
      intro e he
      simp only [btSet, List.mem_singleton] at he
      exact Or.inl he
  | cons hd tl ih =>
      obtain ⟨k', v'⟩ := hd
      intro e he
      unfold btSet at he
      split at he
      · rcases List.mem_cons.mp he with he | he
        · exact Or.inl he
        · exact Or.inr he
      · split at he
        · rcases List.mem_cons.mp he with he | he
          · exact Or.inl he
          · exact Or.inr (List.mem_cons_of_mem _ he)
        · rcases List.mem_cons.mp he with he | he
          · exact Or.inr (he ▸ List.mem_cons_self _ _)
          · rcases ih e he with h | h
            · exact Or.inl h
            · exact Or.inr (List.mem_cons_of_mem _ h)

/-- Setting preserves the strict ascending-order invariant. -/
theorem btSet_sorted {α : Type} {l : List (String × α)} {k : String} {v : α}
    (hs : sortedKeyList l) : sortedKeyList (btSet l k v) := by
  induction l with
  | nil => simp [btSet, sortedKeyList]
  | cons hd tl ih =>
      obtain ⟨k', v'⟩ := hd
      rcases List.pairwise_cons.mp hs with ⟨hhd, htl⟩
      unfold btSet
      split
      · next hlt =>
          refine List.pairwise_cons.mpr ⟨?_, hs⟩
          intro q hq
          rcases List.mem_cons.mp hq with rfl | hq
          · exact hlt
          · exact stringCompare_lt_trans hlt (hhd q hq)
      · split
        · next hne heq =>
            have hk : k = k' := stringCompare_eq_zero.mp heq
            refine List.pairwise_cons.mpr ⟨?_, htl⟩
            intro q hq
            rw [hk]
            exact hhd q hq
        · next hne hneq =>
            refine List.pairwise_cons.mpr ⟨?_, ih htl⟩
            intro q hq
            rcases btSet_mem q hq with rfl | hq
            · rcases stringCompare_trichotomy k' k with h | h | h
              · exact h
              · exact absurd (stringCompare_eq_zero.mpr h.symm) hneq
              · exact absurd h hne
            · exact hhd q hq

/-- A found entry is a member with exactly the looked-up key. -/
theorem btGet_mem {α : Type} {l : List (String × α)} {k : String} {s : α}
    (h : btGet l k = some s) : (k, s) ∈ l := by
  induction l with
  | nil => cases h
  | cons hd tl ih =>
      obtain ⟨k', v'⟩ := hd
      unfold btGet at h
      split at h
      · next heq =>
          have hk : k = k' := stringCompare_eq_zero.mp heq
          injection h with h
          subst hk
          subst h
          exact List.mem_cons_self _ _
      · exact List.mem_cons_of_mem _ (ih h)

/-- Setting a key greater than every present key appends at the end. -/
theorem btSet_append {α : Type} {l : List (String × α)} {k : String} {v : α}
    (h : ∀ p ∈ l, stringCompare p.1 k < 0) : btSet l k v = l ++ [(k, v)] := by
  induction l with
  | nil => rfl
  | cons hd tl ih =>
      obtain ⟨k', v'⟩ := hd
      have hhd := h (k', v') (List.mem_cons_self _ _)
      have hne : ¬ stringCompare k k' < 0 := stringCompare_lt_asymm hhd
      have hneq : ¬ stringCompare k k' = 0 := by
        intro heq
        have hk : k = k' := stringCompare_eq_zero.mp heq
        subst hk
        simp [stringCompare_self] at hhd
      unfold btSet
      rw [if_neg hne, if_neg hneq, ih (fun p hp => h p (List.mem_cons_of_mem _ hp))]
      rfl

/-- A set add preserves duplicate freedom. -/
theorem jsAdd_nodup {l : JsSet} {x : Nat} (h : l.Nodup) : (jsAdd l x).Nodup := by
  unfold jsAdd
  split
  · exact h
  · next hx => simp [List.nodup_append, h, hx]

/-- Rebuilding a set from a duplicate-free list gives the list back. -/
theorem jsNew_eq_self {l : List Nat} (h : l.Nodup) : jsNew l = l := by
  unfold jsNew
  suffices haux : ∀ (l' : List Nat) (acc : JsSet), l'.Nodup →
      (∀ y ∈ l', y ∉ acc) → l'.foldl jsAdd acc = acc ++ l' by
    simpa using haux l [] h (by simp)
  intro l'
  induction l' with
  | nil => simp
  | cons x xs ih =>
      intro acc hnd hdis
      have hx : x ∉ acc := hdis x (List.mem_cons_self _ _)
      have hstep : jsAdd acc x = acc ++ [x] := by
        unfold jsAdd
        rw [if_neg hx]
      rcases List.nodup_cons.mp hnd with ⟨hxxs, hxs⟩
      simp only [List.foldl_cons, hstep]
      rw [ih (acc ++ [x]) hxs ?_]
      · simp
      · intro y hy
        simp only [List.mem_append, List.mem_singleton]
        rintro (hmem | rfl)
        · exact hdis y (List.mem_cons_of_mem _ hy) hmem
        · exact hxxs hy

/-- Folding b-tree sets of ascending fresh entries onto a compatible
accumulator appends them in order (the deserialisation replay of a sorted
serialized map). -/
theorem fold_btSet_entries :
    ∀ (l acc : List (String × JsSet)),
      sortedKeyList l →
      (∀ e ∈ l, jsNew e.2 = e.2) →
      (∀ p ∈ acc, ∀ q ∈ l, stringCompare p.1 q.1 < 0) →
      l.foldl (fun m p => btSet m p.1 (jsNew p.2)) acc = acc ++ l := by
  intro l
  induction l with
  | nil => simp
  | cons e l' ih =>
      intro acc hs hv hacc
      rcases List.pairwise_cons.mp hs with ⟨he, hl'⟩
      have hstep : btSet acc e.1 (jsNew e.2) = acc ++ [e] := by
        rw [btSet_append (fun p hp => hacc p hp e (List.mem_cons_self _ _))]
        rw [hv e (List.mem_cons_self _ _)]
      simp only [List.foldl_cons, hstep]
      rw [ih (acc ++ [e]) hl' (fun q hq => hv q (List.mem_cons_of_mem _ hq)) ?_]
      · simp
      · intro p hp q hq
        rcases List.mem_append.mp hp with hp | hp
        · exact hacc p hp q (List.mem_cons_of_mem _ hq)
        · rcases List.mem_singleton.mp hp with rfl
          exact he q hq

/-- Adding a key value preserves the values-map invariant. -/
theorem addKey_values_inv {st : KeyState} {e : String} {n : Nat}
    (h : valuesInv st.values) : valuesInv (st.addKey e n).values := by
  obtain ⟨hs, hn⟩ := h
  unfold KeyState.addKey
  cases hget : btGet st.values e with
  | some set =>
      refine ⟨btSet_sorted hs, ?_⟩
      intro q hq
      rcases btSet_mem q hq with rfl | hq
      · exact jsAdd_nodup (hn (e, set) (btGet_mem hget))
      · exact hn q hq
  | none =>
      refine ⟨btSet_sorted hs, ?_⟩
      intro q hq
      rcases btSet_mem q hq with rfl | hq
      · exact jsAdd_nodup List.nodup_nil
      · exact hn q hq

/-- Word registration does not touch the values map. -/
theorem addWord_values (st : KeyState) (e : String) (n : Nat) :
    (st.addWord e n).values = st.values := by
  unfold KeyState.addWord
  generalize wordSliceList (splitRuns e) = ws
  induction ws generalizing st with
  | nil => rfl
  | cons w ws ih =>
      simp only [List.foldl_cons]
      rw [ih]
      split
      · split <;> rfl
      · rfl

/-- Inserting derived values preserves the values-map invariant. -/
theorem insertKey_values_inv {G : Type} (k : IKey G) (n : Nat)
    (value : List String) (h : valuesInv k.state.values) :
    valuesInv (k.insertKey n value).state.values := by
  unfold IKey.insertKey
  suffices haux : ∀ (vs : List String) (st : KeyState), valuesInv st.values →
      valuesInv ((vs.foldl (fun st each => (st.addKey each n).addWord each n) st).values) by
    exact haux value k.state h
  intro vs
  induction vs with
  | nil => exact fun st h => h
  | cons e vs ih =>
      intro st hst
      simp only [List.foldl_cons]
      apply ih
      rw [addWord_values]
      exact addKey_values_inv hst

/-- Target insertion preserves the values-map invariant. -/
theorem insert_values_inv {G : Type} (k : IKey G) (g : G) (n : Nat)
    (h : valuesInv k.state.values) : valuesInv (k.insert g n).state.values := by
  unfold IKey.insert
  cases k.accessor g with
  | nil => exact h
  | cons v vs => exact insertKey_values_inv k n (v :: vs) h

/-- Target insertion preserves the key identity. -/
theorem insert_identity {G : Type} (k : IKey G) (g : G) (n : Nat) :
    (k.insert g n).identity = k.identity := by
  unfold IKey.insert
  cases k.accessor g <;> rfl

/-- Target insertion preserves the identity-key flag. -/
theorem insert_isIdentityKey {G : Type} (k : IKey G) (g : G) (n : Nat) :
    (k.insert g n).isIdentityKey = k.isIdentityKey := by
  unfold IKey.insert
  cases k.accessor g <;> rfl

/-- Target insertion preserves the alternative identities. -/
theorem insert_altIdentities {G : Type} (k : IKey G) (g : G) (n : Nat) :
    (k.insert g n).alternativeIdentities = k.alternativeIdentities := by
  unfold IKey.insert
  cases k.accessor g <;> rfl

/-- Finalisation does not touch the values map. -/
theorem doneInsertion_values {G : Type} (k : IKey G) :
    (k.doneInsertion).state.values = k.state.values := by
  unfold IKey.doneInsertion
  split <;> rfl

/-- Finalisation does not touch the word index. -/
theorem doneInsertion_words {G : Type} (k : IKey G) :
    (k.doneInsertion).state.words = k.state.words := by
  unfold IKey.doneInsertion
  split <;> rfl

/-- Finalisation preserves the key identity. -/
theorem doneInsertion_identity {G : Type} (k : IKey G) :
    (k.doneInsertion).identity = k.identity := by
  unfold IKey.doneInsertion
  split <;> rfl

/-- Finalisation preserves the identity-key flag. -/
theorem doneInsertion_isIdentityKey {G : Type} (k : IKey G) :
    (k.doneInsertion).isIdentityKey = k.isIdentityKey := by
  unfold IKey.doneInsertion
  split <;> rfl

/-- Finalisation preserves the alternative identities. -/
theorem doneInsertion_altIdentities {G : Type} (k : IKey G) :
    (k.doneInsertion).alternativeIdentities = k.alternativeIdentities := by
  unfold IKey.doneInsertion
  split <;> rfl

/-- The `where` clone keeps the values map of the master key. -/
theorem cloneKey_values {G : Type} (impl : IKey G) :
    (IKey.cloneKey { impl with state := KeyState.empty } impl).state.values =
      impl.state.values := by
  unfold IKey.cloneKey
  split <;> rfl

/-- The `where` clone keeps the word index of the master key. -/
theorem cloneKey_words {G : Type} (impl : IKey G) :
    (IKey.cloneKey { impl with state := KeyState.empty } impl).state.words =
      impl.state.words := by
  unfold IKey.cloneKey
  split <;> rfl

/-- The `where` clone keeps the identity of the master key. -/
theorem cloneKey_identity {G : Type} (impl : IKey G) :
    (IKey.cloneKey { impl with state := KeyState.empty } impl).identity =
      impl.identity := by
  unfold IKey.cloneKey
  split <;> rfl

/-- Deserialising the serialized form of a well-formed key into a fresh
key reproduces the values map exactly. -/
theorem deserialize_values {G : Type} (f m : IKey G)
    (hempty : f.state = KeyState.empty) (hinv : valuesInv m.state.values) :
    (f.deserialize m.serialize).state.values = m.state.values := by
  obtain ⟨hs, hn⟩ := hinv
  have hkeys : (IKey.serialize m).keys = m.state.values := by
    unfold IKey.serialize
    simp
  have hfold : (IKey.serialize m).keys.foldl
      (fun mm (p : String × List Nat) => btSet mm p.1 (jsNew p.2))
      f.state.values = m.state.values := by
    rw [hkeys, hempty]
    have hres := fold_btSet_entries m.state.values []
      hs (fun e he => jsNew_eq_self (hn e he)) (fun p hp => by cases hp)
    simpa using hres
  unfold IKey.deserialize
  split
  · rw [doneInsertion_values]
    unfold KeyState.deserializeKeys
    exact hfold
  · unfold KeyState.deserializeKeys
    exact hfold

/-- Deserialisation preserves the key identity. -/
theorem deserialize_identity {G : Type} (f : IKey G) (c : SerializedKey) :
    (f.deserialize c).identity = f.identity := by
  unfold IKey.deserialize
  split
  · rw [doneInsertion_identity]
  · rfl

/-- Members of a schema key registration. -/
theorem schemaSetKey_mem {G : Type} {ks : List (IKey G)} {k : IKey G} :
    ∀ q ∈ schemaSetKey ks k, q = k ∨ q ∈ ks := by
  intro q hq
  unfold schemaSetKey at hq
  split at hq
  · rcases List.mem_map.mp hq with ⟨o, ho, hqo⟩
    by_cases hid : o.identity = k.identity
    · rw [if_pos hid] at hqo
      exact Or.inl hqo.symm
    · rw [if_neg hid] at hqo
      exact Or.inr (hqo ▸ ho)
  · rcases List.mem_append.mp hq with h | h
    · exact Or.inr h
    · exact Or.inl (List.mem_singleton.mp h)

/-- Registering a key preserves the identity sequence or appends the new
identity. -/
theorem schemaSetKey_names {G : Type} (ks : List (IKey G)) (k : IKey G) :
    (schemaSetKey ks k).map (fun q => q.identity) = ks.map (fun q => q.identity) ∨
    ((schemaSetKey ks k).map (fun q => q.identity) =
      ks.map (fun q => q.identity) ++ [k.identity] ∧
      ¬ k.identity ∈ ks.map (fun q => q.identity)) := by
  unfold schemaSetKey
  split
  · left
    rw [List.map_map]
    apply List.map_congr_left
    intro q _
    by_cases hq : q.identity = k.identity
    · simp [Function.comp, hq]
    · simp [Function.comp, hq]
  · next hany =>
      right
      constructor
      · simp
      · intro hmem
        rcases List.mem_map.mp hmem with ⟨q, hq, hqe⟩
        exact hany (List.any_eq_true.mpr ⟨q, hq, by simp [hqe]⟩)

/-- Every key of a constructed schema is freshly constructed from one of
the declarations. -/
theorem mkSchema_keys_fresh {G : Type} (specs : List (KeySpec G)) :
    ∀ k ∈ (mkSchema specs).mapOfKeyObjects, ∃ sp, k = mkKey sp := by
  unfold mkSchema
  suffices haux : ∀ (sps : List (KeySpec G)) (ks : List (IKey G)),
      (∀ k ∈ ks, ∃ sp, k = mkKey sp) →
      ∀ k ∈ sps.foldl (fun ks sp => schemaSetKey ks (mkKey sp)) ks,
        ∃ sp, k = mkKey sp by
    exact haux specs [] (by simp)
  intro sps
  induction sps with
  | nil => exact fun ks h => h
  | cons sp sps ih =>
      intro ks hks
      simp only [List.foldl_cons]
      apply ih
      intro k hk
      rcases schemaSetKey_mem k hk with rfl | hk
      · exact ⟨sp, rfl⟩
      · exact hks k hk

/-- The identities of a constructed schema are pairwise distinct. -/
theorem mkSchema_names_nodup {G : Type} (specs : List (KeySpec G)) :
    ((mkSchema specs).mapOfKeyObjects.map (fun q => q.identity)).Nodup := by
  unfold mkSchema
  suffices haux : ∀ (sps : List (KeySpec G)) (ks : List (IKey G)),
      (ks.map (fun q => q.identity)).Nodup →
      ((sps.foldl (fun ks sp => schemaSetKey ks (mkKey sp)) ks).map
        (fun q => q.identity)).Nodup by
    exact haux specs [] (by simp)
  intro sps
  induction sps with
  | nil => exact fun ks h => h
  | cons sp sps ih =>
      intro ks hks
      simp only [List.foldl_cons]
      apply ih
      rcases schemaSetKey_names ks (mkKey sp) with h | ⟨h, hnot⟩
      · rw [h]; exact hks
      · rw [h]
        simp only [List.nodup_append, List.nodup_singleton]
        exact ⟨hks, trivial, by simpa using hnot⟩

/-- A pointwise-related pair of lists yields pointwise-related `find?`
results whenever the predicates agree across the relation. -/
theorem forall₂_find? {α β : Type} {r : α → β → Prop} {p : α → Bool} {q : β → Bool}
    (hpq : ∀ a b, r a b → p a = q b) :
    ∀ {l1 : List α} {l2 : List β}, List.Forall₂ r l1 l2 →
      (l1.find? p = none ∧ l2.find? q = none) ∨
      (∃ a b, l1.find? p = some a ∧ l2.find? q = some b ∧ r a b) := by
  intro l1 l2 h
  induction h with
  | nil => exact Or.inl ⟨rfl, rfl⟩
  | @cons a b t1 t2 hab htl ih =>
      cases hpa : p a with
      | true =>
          have hqb : q b = true := by rw [← hpq a b hab]; exact hpa
          exact Or.inr ⟨a, b, List.find?_cons_of_pos _ hpa,
            List.find?_cons_of_pos _ hqb, hab⟩
      | false =>
          have hqb : q b = false := by rw [← hpq a b hab]; exact hpa
          rw [List.find?_cons_of_neg _ (by simp [hpa]),
              List.find?_cons_of_neg _ (by simp [hqb])]
          exact ih

/-- Strengthen a pointwise relation with membership facts. -/
theorem forall₂_mem_strengthen {α β : Type} {r : α → β → Prop} :
    ∀ {l1 : List α} {l2 : List β}, List.Forall₂ r l1 l2 →
      List.Forall₂ (fun a b => r a b ∧ a ∈ l1 ∧ b ∈ l2) l1 l2 := by
  intro l1 l2 h
  induction h with
  | nil => exact .nil
  | @cons a b t1 t2 hab htl ih =>
      refine .cons ⟨hab, List.mem_cons_self _ _, List.mem_cons_self _ _⟩ ?_
      exact ih.imp (fun a' b' hab' =>
        ⟨hab'.1, List.mem_cons_of_mem _ hab'.2.1, List.mem_cons_of_mem _ hab'.2.2⟩)

/-- Map a pointwise relation through functions on both sides. -/
theorem forall₂_map_both {α β γ δ : Type} {r : α → β → Prop} {s : γ → δ → Prop}
    {f : α → γ} {g : β → δ} (h : ∀ a b, r a b → s (f a) (g b)) :
    ∀ {l1 : List α} {l2 : List β}, List.Forall₂ r l1 l2 →
      List.Forall₂ s (l1.map f) (l2.map g) := by
  intro l1 l2 hrel
  induction hrel with
  | nil => exact .nil
  | @cons a b t1 t2 hab htl ih => exact .cons (h a b hab) ih

/-- Related lists have equal images under functions that agree across the
relation. -/
theorem forall₂_map_eq {α β γ : Type} {r : α → β → Prop} {f : α → γ} {g : β → γ}
    (h : ∀ a b, r a b → f a = g b) :
    ∀ {l1 : List α} {l2 : List β}, List.Forall₂ r l1 l2 →
      l1.map f = l2.map g := by
  intro l1 l2 hrel
  induction hrel with
  | nil => rfl
  | @cons a b t1 t2 hab htl ih => simp [h a b hab, ih]

/-- In a list of keys with pairwise distinct identities, looking up the
identity of a member finds that member. -/
theorem find?_self_of_nodup {G : Type} {M : List (IKey G)}
    (hnd : (M.map (fun k => k.identity)).Nodup) {m : IKey G} (hm : m ∈ M) :
    M.find? (fun k => k.identity = m.identity) = some m := by
  induction M with
  | nil => cases hm
  | cons hd tl ih =>
      simp only [List.map_cons, List.nodup_cons] at hnd
      obtain ⟨hhd, htl⟩ := hnd
      rcases List.mem_cons.mp hm with rfl | hm
      · exact List.find?_cons_of_pos _ (by simp)
      · have hne : hd.identity ≠ m.identity := by
          intro he
          exact hhd (he ▸ List.mem_map.mpr ⟨m, hm, rfl⟩)
        rw [List.find?_cons_of_neg _ (by simp [hne])]
        exact ih htl hm

/-- The keys of the built index are pointwise related to the freshly
constructed schema keys: same identities, same identity-key flags, and
well-formed values maps. -/
theorem buildIndex_rel {G T : Type} (specs : List (KeySpec G)) (inserts : List (G × T)) :
    List.Forall₂ (fun f m => f.identity = m.identity ∧
        f.isIdentityKey = m.isIdentityKey ∧ valuesInv m.state.values)
      (mkSchema specs).mapOfKeyObjects
      (buildIndex specs inserts).indexSchema.mapOfKeyObjects := by
  unfold buildIndex
  have hbase : List.Forall₂ (fun f m => f.identity = m.identity ∧
      f.isIdentityKey = m.isIdentityKey ∧ valuesInv m.state.values)
      (mkSchema specs).mapOfKeyObjects
      (Index.create (T := T) specs).indexSchema.mapOfKeyObjects := by
    apply List.forall₂_same.mpr
    intro k hk
    rcases mkSchema_keys_fresh specs k hk with ⟨sp, rfl⟩
    exact ⟨rfl, rfl, List.Pairwise.nil, by intro e he; cases he⟩
  have hfold : ∀ (ins : List (G × T)) (idx : Index G T),
      List.Forall₂ (fun f m => f.identity = m.identity ∧
        f.isIdentityKey = m.isIdentityKey ∧ valuesInv m.state.values)
        (mkSchema specs).mapOfKeyObjects idx.indexSchema.mapOfKeyObjects →
      List.Forall₂ (fun f m => f.identity = m.identity ∧
        f.isIdentityKey = m.isIdentityKey ∧ valuesInv m.state.values)
        (mkSchema specs).mapOfKeyObjects
        ((ins.foldl (fun idx p => idx.insert p.1 p.2) idx).indexSchema.mapOfKeyObjects) := by
    intro ins
    induction ins with
    | nil => exact fun idx h => h
    | cons p ins ih =>
        intro idx h
        simp only [List.foldl_cons]
        apply ih
        apply List.forall₂_map_right_iff.mpr
        exact h.imp (fun a b hab =>
          ⟨(insert_identity b p.1 _).symm ▸ hab.1,
           (insert_isIdentityKey b p.1 _).symm ▸ hab.2.1,
           insert_values_inv b p.1 _ hab.2.2⟩)
  have hdone := hfold inserts (Index.create specs) hbase
  unfold Index.doneInsertion
  apply List.forall₂_map_right_iff.mpr
  exact hdone.imp (fun a b hab =>
    ⟨(doneInsertion_identity b).symm ▸ hab.1,
     (doneInsertion_isIdentityKey b).symm ▸ hab.2.1,
     (doneInsertion_values b).symm ▸ hab.2.2⟩)

/-- Deserialising a list of fresh keys against content that maps each key
to the serialized form of its well-formed counterpart succeeds and
reproduces every values map. -/
theorem deserializeKeyList_spec {G : Type} {F M : List (IKey G)}
    {content : List (String × SerializedKey)}
    (h : List.Forall₂ (fun f m =>
        findAlt content f.alternativeIdentities = some m.serialize ∧
        f.state = KeyState.empty ∧ f.identity = m.identity ∧
        valuesInv m.state.values) F M) :
    ∃ F', deserializeKeyList F content = .ok F' ∧
      List.Forall₂ (fun f' m => f'.state.values = m.state.values ∧
        f'.identity = m.identity) F' M := by
  induction h with
  | nil => exact ⟨[], rfl, .nil⟩
  | @cons f m F1 M1 hfm htl ih =>
      obtain ⟨hfind, hempty, hid, hinv⟩ := hfm
      rcases ih with ⟨F2, hF2, hrel⟩
      refine ⟨f.deserialize m.serialize :: F2, ?_, ?_⟩
      · unfold deserializeKeyList
        rw [hfind, hF2]
        rfl
      · exact .cons ⟨deserialize_values f m hempty hinv,
          (deserialize_identity f _).trans hid⟩ hrel

/-- The selected set after an exact-match query depends only on the
identities and values maps of the schema keys. -/
theorem keyEquals_selected_congr {G : Type} {ks1 ks2 : List (IKey G)}
    (kid : String) (v : Option String)
    (h : List.Forall₂ (fun a b => a.identity = b.identity ∧
        a.state.values = b.state.values) ks1 ks2) :
    (keyEquals (⟨ks1, none⟩ : IndexSchema G) kid v).selectedElements =
      (keyEquals (⟨ks2, none⟩ : IndexSchema G) kid v).selectedElements := by
  unfold keyEquals IndexSchema.findKey
  rcases forall₂_find? (p := fun k => decide (k.identity = kid))
      (q := fun k => decide (k.identity = kid))
      (fun a b hab => by simp [hab.1]) h with ⟨h1, h2⟩ | ⟨a, b, h1, h2, hab⟩
  · rw [h1, h2]
  · rw [h1, h2]
    cases v with
    | none => rfl
    | some vv =>
        by_cases hv : vv = ""
        · simp [hv]
        · simp only [ne_eq, hv, not_false_eq_true, if_true, hab.2]
          rfl

/-- C5: for every index built by insertions and finalised, and for every
key name and value, the selected id set of `where.<key>.equals(v)` is the
same on the original index and on a fresh index obtained by deserialising
its serialized form. -/
theorem c5_roundtrip_equals {G T : Type} (specs : List (KeySpec G))
    (inserts : List (G × T)) (kid : String) (v : Option String) :
    (roundTripIndex specs (buildIndex specs inserts)).toOption.map
      (fun idx2 => equalsSelected idx2 kid v) =
      some (equalsSelected (buildIndex specs inserts) kid v) := by
  have hrel := buildIndex_rel specs inserts
  have hndF := mkSchema_names_nodup specs
  have hnamesEq : (mkSchema specs).mapOfKeyObjects.map (fun k => k.identity) =
      (buildIndex specs inserts).indexSchema.mapOfKeyObjects.map (fun k => k.identity) :=
    forall₂_map_eq (fun a b hab => hab.1) hrel
  have hndM : ((buildIndex specs inserts).indexSchema.mapOfKeyObjects.map
      (fun k => k.identity)).Nodup := hnamesEq ▸ hndF
  have hser : List.Forall₂ (fun f m =>
      findAlt ((buildIndex specs inserts).indexSchema.mapOfKeyObjects.map
        (fun k => (k.identity, k.serialize))) f.alternativeIdentities =
          some m.serialize ∧
      f.state = KeyState.empty ∧ f.identity = m.identity ∧
      valuesInv m.state.values)
      (mkSchema specs).mapOfKeyObjects
      (buildIndex specs inserts).indexSchema.mapOfKeyObjects := by
    refine (forall₂_mem_strengthen hrel).imp (fun f m hfm => ?_)
    obtain ⟨⟨hid, hflag, hinv⟩, hfF, hmM⟩ := hfm
    rcases mkSchema_keys_fresh specs f hfF with ⟨sp, rfl⟩
    refine ⟨?_, rfl, hid, hinv⟩
    have hlook : lookupContent
        ((buildIndex specs inserts).indexSchema.mapOfKeyObjects.map
          (fun k => (k.identity, k.serialize))) (mkKey sp).identity =
        some m.serialize := by
      unfold lookupContent
      rw [List.find?_map]
      have hfound : (buildIndex specs inserts).indexSchema.mapOfKeyObjects.find?
          ((fun p => decide (p.1 = (mkKey sp).identity)) ∘
            (fun k => (k.identity, k.serialize))) = some m := by
        have heq : ((fun (p : String × SerializedKey) => decide (p.1 = (mkKey sp).identity)) ∘
            (fun k : IKey G => (k.identity, k.serialize))) =
            (fun k : IKey G => decide (k.identity = m.identity)) := by
          funext k
          simp [Function.comp, hid]
        rw [heq]
        exact find?_self_of_nodup hndM hmM
      rw [hfound]
      rfl
    show findAlt _ ((mkKey sp).identity :: sp.altTail) = some m.serialize
    unfold findAlt
    rw [hlook]
  rcases deserializeKeyList_spec hser with ⟨F', hF', hrelF'⟩
  have hrt : roundTripIndex specs (buildIndex specs inserts) =
      .ok ⟨(buildIndex specs inserts).indexOfTargets,
           ⟨F', (mkSchema specs).selectedElements⟩⟩ := by
    unfold roundTripIndex Index.deserialize Index.serialize Index.create
    rw [hF']
    rfl
  rw [hrt]
  simp only [Except.toOption, Option.map_some']
  congr 1
  unfold equalsSelected Index.whereView
  apply keyEquals_selected_congr
  apply forall₂_map_both (r := fun f' m => f'.state.values = m.state.values ∧
    f'.identity = m.identity) ?_ hrelF'
  intro a b hab
  constructor
  · rw [cloneKey_identity, cloneKey_identity, hab.2]
  · rw [cloneKey_values, cloneKey_values, hab.1]

/-- Filtering never changes the key collection of a schema. -/
theorem filter_keys {G : Type} (sch : IndexSchema G) (ids : List Nat) :
    (sch.filter ids).mapOfKeyObjects = sch.mapOfKeyObjects := by
  unfold IndexSchema.filter
  cases sch.selectedElements <;> rfl

/-- A query operation never changes the key collection of a schema. -/
theorem applyOp_keys {G : Type} (sch : IndexSchema G) (op : QueryOp) :
    (applyOp sch op).mapOfKeyObjects = sch.mapOfKeyObjects := by
  rcases applyOp_shape sch op with heq | ⟨ids, heq⟩
  · rw [heq]
  · rw [heq, filter_keys]

/-- A chain of query operations never changes the key collection. -/
theorem applyChain_keys {G : Type} (sch : IndexSchema G) (ops : List QueryOp) :
    (applyChain sch ops).mapOfKeyObjects = sch.mapOfKeyObjects := by
  unfold applyChain
  induction ops generalizing sch with
  | nil => rfl
  | cons op ops ih =>
      simp only [List.foldl_cons]
      rw [ih (applyOp sch op), applyOp_keys]

/-- The selected set of an index built by insertions is never narrowed. -/
theorem buildIndex_selected_none {G T : Type} (specs : List (KeySpec G))
    (inserts : List (G × T)) :
    (buildIndex specs inserts).indexSchema.selectedElements = none := by
  unfold buildIndex Index.doneInsertion
  suffices haux : ∀ (ins : List (G × T)) (idx : Index G T),
      (ins.foldl (fun idx p => idx.insert p.1 p.2) idx).indexSchema.selectedElements =
        idx.indexSchema.selectedElements by
    rw [haux inserts (Index.create specs)]
    rfl
  intro ins
  induction ins with
  | nil => exact fun idx => rfl
  | cons p ins ih =>
      intro idx
      simp only [List.foldl_cons]
      rw [ih]
      rfl

/-- C6: the master index built by insertions has nothing selected, and a
query chain of the filtering operations applied to the schema clone
returned by `where` leaves every key's sorted values map and word index
identical to the master's. -/
theorem c6_where_frame {G T : Type} (specs : List (KeySpec G))
    (inserts : List (G × T)) (chain : List QueryOp) :
    (applyChain (buildIndex specs inserts).whereView chain).mapOfKeyObjects.map keyMaps =
      (buildIndex specs inserts).indexSchema.mapOfKeyObjects.map keyMaps ∧
    (buildIndex specs inserts).indexSchema.selectedElements = none := by
  constructor
  · rw [applyChain_keys]
    unfold Index.whereView
    rw [List.map_map]
    apply List.map_congr_left
    intro impl _
    simp only [Function.comp, keyMaps]
    rw [cloneKey_values, cloneKey_words]
  · exact buildIndex_selected_none specs inserts

/-- Membership in the union fold over the id sets of a list of entries. -/
theorem mem_foldl_union (entries : List (String × JsSet)) :
    ∀ (acc : JsSet) (y : Nat),
      y ∈ entries.foldl (fun acc e => e.2.foldl jsAdd acc) acc ↔
        y ∈ acc ∨ ∃ e ∈ entries, y ∈ e.2 := by
  induction entries with
  | nil => simp
  | cons e es ih =>
      intro acc y
      simp only [List.foldl_cons, ih, mem_foldl_jsAdd, List.mem_cons]
      constructor
      · rintro ((h | h) | ⟨q, hq, hy⟩)
        · exact Or.inl h
        · exact Or.inr ⟨e, Or.inl rfl, h⟩
        · exact Or.inr ⟨q, Or.inr hq, hy⟩
      · rintro (h | ⟨q, (rfl | hq), hy⟩)
        · exact Or.inl (Or.inl h)
        · exact Or.inl (Or.inr hy)
        · exact Or.inr ⟨q, hq, hy⟩

/-- Membership in the id set collected over a comparator range of the
values map. -/
theorem mem_rangeSet {l : List (String × JsSet)} {lo hi : String}
    {includeHi : Bool} {y : Nat} :
    y ∈ rangeSet l lo hi includeHi ↔
      ∃ e ∈ l, (stringCompare lo e.1 ≤ 0 ∧
        (if includeHi then stringCompare e.1 hi ≤ 0 else stringCompare e.1 hi < 0)) ∧
        y ∈ e.2 := by
  unfold rangeSet
  rw [mem_foldl_union]
  simp only [List.not_mem_nil, false_or, List.mem_filter, decide_eq_true_eq]
  constructor
  · rintro ⟨e, ⟨he, hc⟩, hy⟩
    exact ⟨e, he, hc, hy⟩
  · rintro ⟨e, he, hc, hy⟩
    exact ⟨e, ⟨he, hc⟩, hy⟩

/-- In a strictly ascending association list every key compares at most
equal to the last key. -/
theorem sorted_le_last {α : Type} :
    ∀ (l : List (String × α)), sortedKeyList l →
      ∀ e ∈ l, ∀ m, l.getLast? = some m → stringCompare e.1 m.1 ≤ 0 := by
  intro l
  induction l with
  | nil =>
      intro _ e he
      cases he
  | cons hd tl ih =>
      intro hs e he m hm
      unfold sortedKeyList at hs
      cases tl with
      | nil =>
          simp only [List.getLast?_singleton, Option.some.injEq] at hm
          have h1 : e = hd := by simpa using he
          subst hm
          subst h1
          exact le_of_eq (stringCompare_self _)
      | cons b bs =>
          rw [List.getLast?_cons_cons] at hm
          have hs' := List.pairwise_cons.mp hs
          rcases List.mem_cons.mp he with rfl | he'
          · have hmem : m ∈ b :: bs := List.mem_of_mem_getLast? hm
            exact le_of_lt (hs'.1 m hmem)
          · exact ih hs'.2 e he' m hm

/-- A non-empty string compares strictly above the empty string under the
`StringKey` comparator. -/
theorem stringCompare_empty_right {v : String} (hv : v ≠ "") :
    stringCompare v "" = 1 := by
  unfold stringCompare
  rw [if_neg (by simp), if_pos hv]

/-- C10: on a schema whose selection is still undefined, for a declared
key with a strictly sorted values map and a non-empty value v:
(1) greaterThan's lower bound is inclusive — every id stored exactly under
v is in the selection greaterThan produces; (2) lessThan keeps only ids
from entries comparing strictly below v, so the ids stored exactly under v
are excluded from its range; (3) when the values map is empty both range
queries still call filter and narrow the selection to the empty set, as
they also do (4) when the value is undefined or the empty string; whereas
(5) equals and contains with an undefined or empty value leave the schema
unchanged. -/
theorem c10_range_bounds {G : Type} (sch : IndexSchema G) (kid v : String)
    (hk : (IndexSchema.findKey sch kid).isSome = true)
    (hsorted : sortedKeyList (keyValuesOf sch kid))
    (hsel : sch.selectedElements = none)
    (hv : v ≠ "") :
    (∀ id ∈ idsUnder sch kid v, ∃ s,
        (keyGreaterThan sch kid (some v)).selectedElements = some s ∧ id ∈ s) ∧
    (∀ id s, (keyLessThan sch kid (some v)).selectedElements = some s → id ∈ s →
        ∃ e ∈ keyValuesOf sch kid, stringCompare e.1 v < 0 ∧ id ∈ e.2) ∧
    (keyValuesOf sch kid = [] →
        (keyGreaterThan sch kid (some v)).selectedElements = some [] ∧
        (keyLessThan sch kid (some v)).selectedElements = some []) ∧
    ((keyGreaterThan sch kid none).selectedElements = some [] ∧
     (keyGreaterThan sch kid (some "")).selectedElements = some [] ∧
     (keyLessThan sch kid none).selectedElements = some [] ∧
     (keyLessThan sch kid (some "")).selectedElements = some []) ∧
    (keyEquals sch kid none = sch ∧ keyEquals sch kid (some "") = sch ∧
     keyContains sch kid none = sch ∧ keyContains sch kid (some "") = sch) := by
  cases hfind : IndexSchema.findKey sch kid with
  | none =>
      rw [hfind] at hk
      cases hk
  | some k =>
  have hkv : keyValuesOf sch kid = k.state.values := by
    unfold keyValuesOf
    rw [hfind]
  rw [hkv] at hsorted
  refine ⟨?_, ?_, ?_, ?_, ?_⟩
  · -- inclusive lower bound of greaterThan
    intro id hid
    unfold idsUnder at hid
    rw [hkv] at hid
    cases hbt : btGet k.state.values v with
    | none =>
        rw [hbt] at hid
        cases hid
    | some setv =>
        rw [hbt, Option.getD_some] at hid
        have hmem : (v, setv) ∈ k.state.values := btGet_mem hbt
        cases hlast : k.state.values.getLast? with
        | none =>
            rw [List.getLast?_eq_none_iff] at hlast
            rw [hlast] at hmem
            cases hmem
        | some m =>
            have hm1 : stringCompare v m.1 ≤ 0 :=
              sorted_le_last k.state.values hsorted (v, setv) hmem m hlast
            have hmne : m.1 ≠ "" := by
              intro h0
              rw [h0, stringCompare_empty_right hv] at hm1
              omega
            refine ⟨jsNew (rangeSet k.state.values v m.1 true), ?_, ?_⟩
            · simp only [keyGreaterThan, hfind, hlast]
              rw [if_pos ⟨hmne, hv⟩]
              simp [IndexSchema.filter, hsel]
            · rw [mem_jsNew, mem_rangeSet]
              refine ⟨(v, setv), hmem, ⟨le_of_eq (stringCompare_self v), ?_⟩, hid⟩
              simpa using hm1
  · -- lessThan keeps only ids from entries strictly below v
    intro id s hsome hmem
    cases hhead : k.state.values.head? with
    | none =>
        simp only [keyLessThan, hfind, hhead, IndexSchema.filter, hsel,
          Option.some.injEq] at hsome
        subst hsome
        simp [mem_jsNew] at hmem
    | some mn =>
        simp only [keyLessThan, hfind, hhead] at hsome
        by_cases hc : mn.1 ≠ "" ∧ v ≠ ""
        · rw [if_pos hc] at hsome
          simp only [IndexSchema.filter, hsel, Option.some.injEq] at hsome
          subst hsome
          rw [mem_jsNew, mem_rangeSet] at hmem
          obtain ⟨e, he, ⟨h1, h2⟩, hy⟩ := hmem
          refine ⟨e, ?_, ?_, hy⟩
          · rw [hkv]
            exact he
          · simpa using h2
        · rw [if_neg hc] at hsome
          simp only [IndexSchema.filter, hsel, Option.some.injEq] at hsome
          subst hsome
          simp [mem_jsNew] at hmem
  · -- empty values map: both ranges select the empty set
    intro hempty
    rw [hkv] at hempty
    constructor
    · simp [keyGreaterThan, hfind, hempty, IndexSchema.filter, hsel, jsNew]
    · simp [keyLessThan, hfind, hempty, IndexSchema.filter, hsel, jsNew]
  · -- undefined or empty value: ranges select the empty set
    refine ⟨?_, ?_, ?_, ?_⟩
    · cases hl : k.state.values.getLast? with
      | none => simp [keyGreaterThan, hfind, hl, IndexSchema.filter, hsel, jsNew]
      | some m => simp [keyGreaterThan, hfind, hl, IndexSchema.filter, hsel, jsNew]
    · cases hl : k.state.values.getLast? with
      | none => simp [keyGreaterThan, hfind, hl, IndexSchema.filter, hsel, jsNew]
      | some m => simp [keyGreaterThan, hfind, hl, IndexSchema.filter, hsel, jsNew]
    · cases hl : k.state.values.head? with
      | none => simp [keyLessThan, hfind, hl, IndexSchema.filter, hsel, jsNew]
      | some m => simp [keyLessThan, hfind, hl, IndexSchema.filter, hsel, jsNew]
    · cases hl : k.state.values.head? with
      | none => simp [keyLessThan, hfind, hl, IndexSchema.filter, hsel, jsNew]
      | some m => simp [keyLessThan, hfind, hl, IndexSchema.filter, hsel, jsNew]
  · -- equals and contains with undefined or empty value are no-ops
    exact ⟨by simp [keyEquals, hfind], by simp [keyEquals, hfind],
      by simp [keyContains, hfind], by simp [keyContains, hfind]⟩

/-- Witness for C10: the three-target index's cloned schema, its identity
key, and the stored value `a/b/y` satisfy every hypothesis, and the ids
stored under `a/b/y` are retained by greaterThan there. -/
theorem c10_witness :
    (IndexSchema.findKey (threeTargetIndex.whereView) "id").isSome = true ∧
    sortedKeyList (keyValuesOf threeTargetIndex.whereView "id") ∧
    threeTargetIndex.whereView.selectedElements = none ∧
    "a/b/y" ≠ "" ∧
    (∀ id ∈ idsUnder threeTargetIndex.whereView "id" "a/b/y", ∃ s,
        (keyGreaterThan threeTargetIndex.whereView "id"
            (some "a/b/y")).selectedElements = some s ∧ id ∈ s) :=
  ⟨rfl, by unfold sortedKeyList; decide, rfl, by decide,
   (c10_range_bounds threeTargetIndex.whereView "id" "a/b/y" rfl
     (by unfold sortedKeyList; decide) rfl (by decide)).1⟩

/-- Indexing into a list through a known drop decomposition. -/
theorem get?_of_drop {l su : List Char} {n : Nat} (h : l.drop n = su) (m : Nat) :
    l.get? (n + m) = su.get? m := by
  rw [← h, List.get?_drop]

/-- One unfolding step of the scanUntil consume loop. -/
theorem scanUntilAux_succ (p : Option Char → Option Char → Option Char → Bool)
    (expectedClose : Option String) (fuel : Nat) (s : Scanner) :
    Scanner.scanUntilAux p expectedClose (fuel + 1) s =
      (let s1 :=
        if (match s.ch with | some c => isLineBreak c | none => false) then
          let cnt := if s.ch = some '\x0d' ∧ s.chNext = some '\n' then 2 else 1
          ({ s.advance cnt with line := s.line + 1, column := 0 }).markPosition
        else
          { s.advance 1 with column := s.column + s.widthOfCh }
      if s1.eof then
        match expectedClose with
        | some close =>
            .error (s1.mkError
              ("Unexpected end of file while searching for '" ++ close ++ "'"))
        | none => .ok s1
      else if p s1.ch s1.chNext s1.chNextNext then .ok s1
      else Scanner.scanUntilAux p expectedClose fuel s1) := rfl

/-- Run of the scanUntil consume loop over a one-character-lookahead
predicate: starting on the text decomposition cs followed by rest, with cs
nonempty, free of line breaks and tabs, the predicate false on every
character of cs after the first, and the predicate true at the head of
rest (or at the NaN past the end), the loop consumes exactly cs and
advances offset and column by its length. -/
theorem scanUntilAux_charPred_run (q : Option Char → Bool) (close : Option String) :
    ∀ (cs : List Char), ∀ (rest : List Char) (s : Scanner) (fuel : Nat),
      s.text.drop s.offset = cs ++ rest →
      cs ≠ [] →
      (∀ c ∈ cs, isLineBreak c = false ∧ c ≠ '\t') →
      (∀ c ∈ cs.drop 1, q (some c) = false) →
      q rest.head? = true →
      cs.length ≤ fuel →
      Scanner.scanUntilAux (charPred q) close fuel s =
        .ok { s with offset := s.offset + cs.length,
                     column := s.column + cs.length } := by
  intro cs
  induction cs with
  | nil =>
      intro rest s fuel _ h2
      exact absurd rfl h2
  | cons c0 cs' ih =>
      intro rest s fuel h1 _ h3 h4 h5 hfuel
      have h0 : s.text.length - s.offset = (c0 :: cs').length + rest.length := by
        rw [← List.length_drop, h1, List.length_append]
      have hle : s.offset ≤ s.text.length := by
        by_contra hgt
        push_neg at hgt
        have : s.text.drop s.offset = [] := List.drop_eq_nil_of_le (le_of_lt hgt)
        rw [h1] at this
        cases this
      have hlen : s.offset + (c0 :: cs').length + rest.length = s.text.length := by
        simp only [List.length_cons] at h0 ⊢
        omega
      have hch : s.ch = some c0 := by
        have := get?_of_drop h1 0
        unfold Scanner.ch
        simpa using this
      have hlb : isLineBreak c0 = false := (h3 c0 (List.mem_cons_self _ _)).1
      have htab : c0 ≠ '\t' := (h3 c0 (List.mem_cons_self _ _)).2
      cases fuel with
      | zero => simp at hfuel
      | succ fuel =>
          rw [scanUntilAux_succ]
          rw [hch]
          simp only [hlb, Bool.false_eq_true, if_false, Scanner.widthOfCh, hch,
            Option.some.injEq, htab, Scanner.advance, Scanner.eof,
            decide_eq_true_eq, List.length_cons] at h0 hlen ⊢
          rw [if_neg (by omega)]
          simp only [charPred, Scanner.ch, Scanner.chNext, Scanner.chNextNext]
          have hch1 : s.text.get? (s.offset + 1) = (cs' ++ rest).get? 0 := by
            have := get?_of_drop h1 1
            simpa using this
          cases cs' with
          | nil =>
              rw [List.nil_append] at hch1
              simp only [hch1, List.get?_zero, h5, if_true]
              simp only [List.length_nil, List.length_cons, Except.ok.injEq,
                Scanner.mk.injEq, true_and, and_true]
          | cons c1 cs2 =>
              rw [List.cons_append] at hch1
              have hq1 : q (some c1) = false := h4 c1 (by simp)
              simp only [hch1, List.get?_cons_zero, hq1, Bool.false_eq_true, if_false]
              have hdrop : List.drop (s.offset + 1) s.text = (c1 :: cs2) ++ rest := by
                rw [← List.drop_drop, h1, List.drop_one]
                rfl
              rw [ih rest _ fuel hdrop (by simp)
                (fun c hc => h3 c (List.mem_cons_of_mem _ hc))
                (fun c hc => h4 c (by
                  simp only [List.drop_one, List.tail_cons] at hc ⊢
                  exact List.mem_cons_of_mem c1 hc))
                h5 (by simpa using hfuel)]
              simp only [List.length_cons, Except.ok.injEq, Scanner.mk.injEq,
                true_and, and_true]
              omega

/-- A binary digit is neither a line break nor a tab. -/
theorem binDigit_props {c : Char} (h : isBinaryDigit c = true) :
    isLineBreak c = false ∧ c ≠ '\t' := by
  unfold isBinaryDigit at h
  rcases Bool.or_eq_true_iff.mp h with h0 | h0 <;>
    · rw [of_decide_eq_true h0]
      exact ⟨by decide, by decide⟩

/-- C8 (amended): only the uppercase spelling reaches the binary-literal
scanner.  For every input `0B` followed by a nonempty maximal run of
binary digits, scan returns a NumericLiteral token whose text is the
lowercase prefix `0b` followed by that maximal run, consuming exactly the
prefix and the run. -/
theorem c8_uppercase_binary (d0 : Char) (ds rest : List Char)
    (hd0 : isBinaryDigit d0 = true)
    (hds : ∀ c ∈ ds, isBinaryDigit c = true)
    (hrest : ∀ c, rest.head? = some c → isBinaryDigit c = false) :
    ∃ s, (Scanner.init (String.mk ('0' :: 'B' :: (d0 :: ds) ++ rest))).scan = .ok s ∧
      s.kind = Kind.NumericLiteral ∧
      s.tokText = "0b" ++ String.mk (d0 :: ds) ∧
      s.tokOffset = 0 ∧ s.offset = 2 + (d0 :: ds).length := by
  have hscan : (Scanner.init (String.mk ('0' :: 'B' :: (d0 :: ds) ++ rest))).scan =
      Scanner.scanBinaryNumber
        (Scanner.init (String.mk ('0' :: 'B' :: (d0 :: ds) ++ rest))) := by
    simp +decide [Scanner.scan, Scanner.init, Scanner.ch, Scanner.chNext, Scanner.eof]
  rw [hscan]
  set s0 := Scanner.init (String.mk ('0' :: 'B' :: (d0 :: ds) ++ rest)) with hs0
  have hnn : s0.chNextNext = some d0 := rfl
  have hrun := scanUntilAux_charPred_run notBinDigit (some "Binary Digit")
    (d0 :: ds) rest (s0.advance 2) ((s0.advance 2).text.length + 2)
    (by rfl)
    (by simp)
    (by
      intro c hc
      rcases List.mem_cons.mp hc with rfl | hc2
      · exact binDigit_props hd0
      · exact binDigit_props (hds c hc2))
    (by
      intro c hc
      simp only [List.drop_one, List.tail_cons] at hc
      simp [notBinDigit, hds c hc])
    (by
      cases rest with
      | nil => rfl
      | cons r rs =>
          simp only [List.head?_cons]
          simp [notBinDigit, hrest r rfl])
    (by
      have hlen : (s0.advance 2).text.length = 2 + ((d0 :: ds).length + rest.length) := by
        rw [hs0]
        simp [Scanner.init, Scanner.advance]
        omega
      omega)
  unfold Scanner.scanBinaryNumber Scanner.scanUntil
  rw [hnn]
  simp only [hd0, if_true]
  rw [hrun]
  refine ⟨_, rfl, rfl, ?_, rfl, ?_⟩
  · simp [hs0, Scanner.init, Scanner.advance, Scanner.markPosition, List.take_left]
  · simp [hs0, Scanner.init, Scanner.advance, Scanner.markPosition]

/-- C8 (counterexample): the claim also asserts the lowercase spelling
`0b` is recognized, but on input `0b1` the scanner takes the decimal
path: the first token is the NumericLiteral `0`, not `0b1`. -/
theorem c8_counterexample :
    ∃ s, (Scanner.init "0b1").scan = .ok s ∧ s.kind = Kind.NumericLiteral ∧
      s.tokText = "0" ∧ s.tokText ≠ "0b1" :=
  ⟨_, rfl, rfl, rfl, by decide⟩

/-- Witness for C8: the input `0B101` instantiates every hypothesis of
the amended theorem and scans to the NumericLiteral `0b101`. -/
theorem c8_witness :
    isBinaryDigit '1' = true ∧ (∀ c ∈ ['0', '1'], isBinaryDigit c = true) ∧
    (∀ c, ([] : List Char).head? = some c → isBinaryDigit c = false) ∧
    (∃ s, (Scanner.init (String.mk ('0' :: 'B' :: ('1' :: ['0', '1']) ++ []))).scan =
        .ok s ∧
      s.kind = Kind.NumericLiteral ∧
      s.tokText = "0b" ++ String.mk ('1' :: ['0', '1']) ∧
      s.tokOffset = 0 ∧ s.offset = 2 + ('1' :: ['0', '1']).length) :=
  ⟨by decide, by decide, (by intro c hc; cases hc),
   c8_uppercase_binary '1' ['0', '1'] [] (by decide) (by decide) (by intro c hc; cases hc)⟩

/-- A list of single-line whitespace characters is consumed whole by the
whitespace run counter. -/
theorem wsRun_all {l : List Char} (h : ∀ c ∈ l, isWhiteSpaceSingleLine c = true) :
    wsRun l = l.length := by
  induction l with
  | nil => rfl
  | cons c cs ih =>
      unfold wsRun
      rw [if_pos (h c (List.mem_cons_self _ _)),
        ih (fun d hd => h d (List.mem_cons_of_mem _ hd))]
      rfl

/-- Single-line whitespace is not a carriage return. -/
theorem ws_not_cr {c : Char} (h : isWhiteSpaceSingleLine c = true) :
    ¬ (c = '\x0d') := by
  rintro rfl
  revert h
  decide

/-- Single-line whitespace is not a line feed. -/
theorem ws_not_lf {c : Char} (h : isWhiteSpaceSingleLine c = true) :
    ¬ (c = '\n') := by
  rintro rfl
  revert h
  decide

/-- Scanning at the position just past the last character: not yet eof,
the lookahead is NaN, and the default switch case produces an Unknown
token of one step. -/
theorem scan_at_end (s : Scanner) (h : s.offset = s.text.length) :
    s.scan = .ok (({ s with tokOffset := s.offset, stringValue := none }).next
      Kind.Unknown 1) := by
  unfold Scanner.scan
  have heof : ({ s with tokOffset := s.offset, stringValue := none } : Scanner).eof
      = false := by
    simp [Scanner.eof, h]
  have hch : ({ s with tokOffset := s.offset, stringValue := none } : Scanner).ch
      = none := by
    simp [Scanner.ch, List.get?_eq_none, h]
  simp only [heof, Bool.false_eq_true, if_false, hch]

/-- Taking a token at the position just past the last character. -/
theorem take_at_end (s : Scanner) (h : s.offset = s.text.length) :
    s.take = .ok (s.tokenOf,
      ({ s with tokOffset := s.offset, stringValue := none }).next Kind.Unknown 1) := by
  unfold Scanner.take
  rw [scan_at_end s h]
  rfl

/-- Skipping whitespace when the cursor holds a whitespace token at the
position just past the last character: one Unknown token is consumed and
the cursor ends past eof. -/
theorem takeWhitespace_at_end (s : Scanner)
    (hoff : s.offset = s.text.length) (hkind : s.kind = Kind.Whitespace) :
    takeWhitespace s =
      .ok (({ s with tokOffset := s.offset, stringValue := none }).next
        Kind.Unknown 1) := by
  unfold takeWhitespace
  rw [show s.text.length + 2 = (s.text.length + 1) + 1 from rfl]
  unfold takeWhitespaceAux
  have heof : s.eof = false := by
    simp [Scanner.eof, hoff]
  rw [if_pos (by simp [heof, hkind])]
  rw [take_at_end s hoff]
  simp only [Bind.bind, Except.bind]
  unfold takeWhitespaceAux
  rw [if_neg (by simp [Scanner.eof, Scanner.next, hoff])]

/-- C9: for the empty input and for every input of only (single-line)
whitespace characters, parseQuery yields a valid QueryList with no
queries, and match returns false on every context. -/
theorem c9_whitespace_matches_nothing (t : String)
    (hws : ∀ c ∈ t.data, isWhiteSpaceSingleLine c = true) :
    (parseQuery t).isValid = true ∧ (parseQuery t).queries = [] ∧
    ∀ ctx, (parseQuery t).matchContext ctx = false := by
  have key : parseQuery t = ⟨[], none⟩ := by
    obtain ⟨l⟩ := t
    cases l with
    | nil => rfl
    | cons c cs =>
        have hc : isWhiteSpaceSingleLine c = true :=
          hws c (List.mem_cons_self _ _)
        have h1 : (Scanner.init ⟨c :: cs⟩).scan =
            .ok ((Scanner.init ⟨c :: cs⟩ : Scanner).scanWhitespace) := by
          simp [Scanner.scan, Scanner.init, Scanner.ch, Scanner.eof, hc,
            ws_not_cr hc, ws_not_lf hc]
        have htext : ((Scanner.init ⟨c :: cs⟩ : Scanner).scanWhitespace).text =
            c :: cs := rfl
        have hkind : ((Scanner.init ⟨c :: cs⟩ : Scanner).scanWhitespace).kind =
            Kind.Whitespace := rfl
        have hoff : ((Scanner.init ⟨c :: cs⟩ : Scanner).scanWhitespace).offset =
            ((Scanner.init ⟨c :: cs⟩ : Scanner).scanWhitespace).text.length := by
          rw [htext]
          simp only [Scanner.scanWhitespace, Scanner.init, Scanner.markPosition,
            zero_add, List.drop_succ_cons, List.drop_zero]
          rw [wsRun_all (fun d hd => hws d (List.mem_cons_of_mem _ hd))]
          simp
          omega
        unfold parseQuery QueryList.parse
        rw [h1]
        simp only []
        rw [show ((Scanner.init ⟨c :: cs⟩ : Scanner).scanWhitespace).text.length + 2 =
          (((Scanner.init ⟨c :: cs⟩ : Scanner).scanWhitespace).text.length + 1) + 1 from rfl]
        unfold QueryList.parseQueries
        rw [takeWhitespace_at_end _ hoff hkind]
        simp only []
        simp [Scanner.next, Scanner.eof, hoff]
  rw [key]
  exact ⟨rfl, rfl, fun ctx => rfl⟩

/-- Witness for C9: the two-space input is all whitespace and parses to
a valid, empty, never-matching QueryList. -/
theorem c9_witness :
    (∀ c ∈ ("  " : String).data, isWhiteSpaceSingleLine c = true) ∧
    ((parseQuery "  ").isValid = true ∧ (parseQuery "  ").queries = [] ∧
      ∀ ctx, (parseQuery "  ").matchContext ctx = false) :=
  ⟨by decide, c9_whitespace_matches_nothing "  " (by decide)⟩
